import Mathlib

/-
  Verification development for tools/unusedsymbols.py: a shallow embedding of
  the object-file parser, the RPN reference scanner and the reference
  accumulator, together with theorems about the program's behaviour.

  Conventions of the embedding:
  * A byte stream is a `List Nat` of the remaining bytes (each < 256 in real
    inputs; the embedding never needs that bound).
  * Strings are kept as their raw byte lists (the program only ever compares
    names for equality, so decoding is irrelevant to the analysis).
  * Fallible steps return `Except PErr`, whose constructors name the concrete
    Python runtime behaviour they stand for (see `PErr`).
  * Python dicts (which preserve insertion order) are modelled as association
    lists `List (List Nat × Nat)` to which new keys are appended at the end.
-/

namespace UnusedSymbols

/- Enumerations, from the `symtype` / `sectype` / `patchtype` / `asserttype`
   classes of the source. -/

inductive symtype where
  | LOCAL
  | IMPORT
  | EXPORT
deriving DecidableEq

inductive sectype where
  | WRAM0
  | VRAM
  | ROMX
  | ROM0
  | HRAM
  | WRAMX
  | SRAM
  | OAM
deriving DecidableEq

inductive patchtype where
  | BYTE
  | WORD
  | LONG
  | JR
deriving DecidableEq

inductive asserttype where
  | WARN
  | ERROR
  | FAIL
deriving DecidableEq

/-- Outcomes of fallible steps.  Each constructor records the concrete Python
runtime behaviour of the source at that point:
* `unknownFormat` — `parse_object` prints an error and returns `None`
  (unknown magic, lines 60-62 of the source);
* `unsupportedVersion` — same, for a resolved version outside
  `[6, 10, 11, 13, 14]` (lines 64-66);
* `structError` — `struct.unpack` raised because `file.read(size)` returned
  fewer than `size` bytes (`unpack_file`, lines 34-36);
* `hangs` — the `read_string` loop never terminates: at end of file
  `file.read(1)` returns `b''`, which is neither `None` nor `b'\x00'`
  (lines 38-45; see the `rsRun` theorems below for the divergence proof);
* `valueError` — an enum constructor (`symtype(...)` etc.) was applied to an
  out-of-range byte;
* `typeError` — the call `unpack_file("<II")` on line 126 omits the `file`
  argument, so Python raises `TypeError` before reading anything;
* `indexError` — a list index out of range (`rpn[pos]` in the inner string
  skip, or `obj["symbols"][symbol_id]`);
* `keyError` — a dict increment on a missing key. -/
inductive PErr where
  | unknownFormat
  | unsupportedVersion
  | structError
  | hangs
  | valueError
  | typeError
  | indexError
  | keyError
deriving DecidableEq

/- Parsed records.  A field that the source stores only under a version /
kind condition is an `Option`, `none` meaning the dict key is absent. -/

structure Symbol where
  name : List Nat
  stype : symtype
  sfilename : Option (List Nat)
  line_num : Option Nat
  sect : Option Nat
  value : Option Nat
deriving DecidableEq

structure Patch where
  pfilename : List Nat
  line : Option Nat
  offset : Nat
  pcsectionid : Option Nat
  pcoffset : Option Nat
  ptype : patchtype
  rpn : List Nat
deriving DecidableEq

structure Assertion where
  afilename : List Nat
  offset : Nat
  atype : asserttype
  rpn : List Nat
  message : List Nat
deriving DecidableEq

/-- A section.  In the source, the keys `data` and `patches` exist only for
ROMX/ROM0 sections; the embedding stores `[]` for the other kinds, which no
part of the program can observe (only ROMX/ROM0 sections are ever scanned). -/
structure Sect where
  sname : List Nat
  stype : sectype
  org : Nat
  bank : Nat
  align : Nat
  offset : Option Nat
  data : List Nat
  patches : List Patch
deriving DecidableEq

structure ObjectFile where
  version : Nat
  symbols : List Symbol
  sections : List Sect
  assertions : Option (List Assertion)
deriving DecidableEq

/- Binary reader. -/

/-- `unpack_file`: `file.read size` returns at most the remaining bytes, and
`struct.unpack` raises (`structError`) unless exactly `n` bytes came back. -/
def readExact (n : Nat) (s : List Nat) : Except PErr (List Nat × List Nat) :=
  if n ≤ s.length then .ok (s.take n, s.drop n) else .error .structError

/-- Little-endian value of a byte list (first byte least significant). -/
def leNum (bs : List Nat) : Nat :=
  bs.foldr (fun b acc => b + 256 * acc) 0

/-- One little-endian u32 field, 4 bytes. -/
def readU32 (s : List Nat) : Except PErr (Nat × List Nat) :=
  match readExact 4 s with
  | .error e => .error e
  | .ok (bs, r) => .ok (leNum bs, r)

/-- One u8 field. -/
def readU8 (s : List Nat) : Except PErr (Nat × List Nat) :=
  match readExact 1 s with
  | .error e => .error e
  | .ok (bs, r) => .ok (leNum bs, r)

/-- `file.read n` used directly (section data, rpn buffers): returns up to `n`
bytes and never fails, silently returning fewer when the stream is short. -/
def readAvail (n : Nat) (s : List Nat) : List Nat × List Nat :=
  (s.take n, s.drop n)

/-- `read_string` (source lines 38-45): bytes up to and excluding the first
zero byte.  When the stream ends first, the source's loop runs forever
(`file.read(1)` yields `b''`, never `None`); the embedding returns the
distinguished outcome `.hangs` there, justified by `rsRun_no_zero_no_return`
below. -/
def read_string : List Nat → List Nat → Except PErr (List Nat × List Nat)
  | _, [] => .error .hangs
  | buf, b :: rest =>
    if b = 0 then .ok (buf, rest) else read_string (buf ++ [b]) rest

/- Step-level model of the `read_string` loop, used to prove that the source
diverges (rather than erroring) on a stream with no zero byte. -/

/-- One iteration of the `read_string` loop on state `(buf, stream)`:
`Sum.inl` is "loop again", `Sum.inr (result, rest)` is "return".  On an empty
stream `file.read(1)` returns `b''`, which fails both the `is None` and the
`== b'\x00'` tests, so the body appends nothing and loops with the very same
state. -/
def read_string_step : List Nat × List Nat → (List Nat × List Nat) ⊕ (List Nat × List Nat)
  | (buf, []) => Sum.inl (buf, [])
  | (buf, b :: rest) =>
    if b = 0 then Sum.inr (buf, rest) else Sum.inl (buf ++ [b], rest)

/-- Run at most `n` iterations of the `read_string` loop; `Sum.inl` means the
loop is still running after `n` iterations. -/
def rsRun : Nat → List Nat × List Nat → (List Nat × List Nat) ⊕ (List Nat × List Nat)
  | 0, st => Sum.inl st
  | n + 1, st =>
    match read_string_step st with
    | Sum.inl st' => rsRun n st'
    | Sum.inr r => Sum.inr r

/- Enum decoding: `symtype(b)` etc. raise `ValueError` on a byte outside the
declared variants. -/

def symtypeOf (b : Nat) : Except PErr symtype :=
  if b = 0 then .ok .LOCAL
  else if b = 1 then .ok .IMPORT
  else if b = 2 then .ok .EXPORT
  else .error .valueError

def sectypeOf (b : Nat) : Except PErr sectype :=
  if b = 0 then .ok .WRAM0
  else if b = 1 then .ok .VRAM
  else if b = 2 then .ok .ROMX
  else if b = 3 then .ok .ROM0
  else if b = 4 then .ok .HRAM
  else if b = 5 then .ok .WRAMX
  else if b = 6 then .ok .SRAM
  else if b = 7 then .ok .OAM
  else .error .valueError

def patchtypeOf (b : Nat) : Except PErr patchtype :=
  if b = 0 then .ok .BYTE
  else if b = 1 then .ok .WORD
  else if b = 2 then .ok .LONG
  else if b = 3 then .ok .JR
  else .error .valueError

def asserttypeOf (b : Nat) : Except PErr asserttype :=
  if b = 0 then .ok .WARN
  else if b = 1 then .ok .ERROR
  else if b = 2 then .ok .FAIL
  else .error .valueError

/-- Reading a `u32` field only when `cond` holds (`none` and no bytes
consumed otherwise) — the version-gated optional fields of the format. -/
def readOptU32 (cond : Bool) (s : List Nat) :
    Except PErr (Option Nat × List Nat) :=
  if cond then
    match readU32 s with
    | .error e => .error e
    | .ok (v, s) => .ok (some v, s)
  else .ok (none, s)

/- Object parser (source lines 47-134). -/

/-- One symbol record (source lines 72-81): name, kind byte, and, unless the
kind is IMPORT, a source filename and three u32 fields. -/
def parseSymbol (s : List Nat) : Except PErr (Symbol × List Nat) :=
  match read_string [] s with
  | .error e => .error e
  | .ok (name, s) =>
    match readU8 s with
    | .error e => .error e
    | .ok (tb, s) =>
      match symtypeOf tb with
      | .error e => .error e
      | .ok st =>
        if st = symtype.IMPORT then
          .ok ({ name := name, stype := st, sfilename := none,
                 line_num := none, sect := none, value := none }, s)
        else
          match read_string [] s with
          | .error e => .error e
          | .ok (fn, s) =>
            match readU32 s with
            | .error e => .error e
            | .ok (ln, s) =>
              match readU32 s with
              | .error e => .error e
              | .ok (sec, s) =>
                match readU32 s with
                | .error e => .error e
                | .ok (v, s) =>
                  .ok ({ name := name, stype := st, sfilename := some fn,
                         line_num := some ln, sect := some sec,
                         value := some v }, s)

def parseSymbols : Nat → List Nat → Except PErr (List Symbol × List Nat)
  | 0, s => .ok ([], s)
  | n + 1, s =>
    match parseSymbol s with
    | .error e => .error e
    | .ok (sym, s) =>
      match parseSymbols n s with
      | .error e => .error e
      | .ok (syms, s) => .ok (sym :: syms, s)

/-- One patch record (source lines 100-113).  `line` is read only when
version < 11; `pcsectionid` / `pcoffset` only when version ≥ 14.  The
source's combined struct reads (`"<II"` for the pc pair, `"<BI"` for
type/size) are modelled as consecutive field reads: both fail with the same
`structError` exactly when the stream is too short for the whole group, and
consume the same bytes when it is not. -/
def parsePatch (ver : Nat) (s : List Nat) : Except PErr (Patch × List Nat) :=
  match read_string [] s with
  | .error e => .error e
  | .ok (fn, s) =>
    match readOptU32 (decide (ver < 11)) s with
    | .error e => .error e
    | .ok (line, s) =>
      match readU32 s with
      | .error e => .error e
      | .ok (off, s) =>
        match readOptU32 (decide (14 ≤ ver)) s with
        | .error e => .error e
        | .ok (pcs, s) =>
          match readOptU32 (decide (14 ≤ ver)) s with
          | .error e => .error e
          | .ok (pco, s) =>
            match readU8 s with
            | .error e => .error e
            | .ok (tb, s) =>
              match readU32 s with
              | .error e => .error e
              | .ok (rpnSize, s) =>
                match patchtypeOf tb with
                | .error e => .error e
                | .ok pt =>
                  let (rpn, s) := readAvail rpnSize s
                  .ok ({ pfilename := fn, line := line, offset := off,
                         pcsectionid := pcs, pcoffset := pco, ptype := pt,
                         rpn := rpn }, s)

def parsePatches (ver : Nat) : Nat → List Nat → Except PErr (List Patch × List Nat)
  | 0, s => .ok ([], s)
  | n + 1, s =>
    match parsePatch ver s with
    | .error e => .error e
    | .ok (p, s) =>
      match parsePatches ver n s with
      | .error e => .error e
      | .ok (ps, s) => .ok (p :: ps, s)

/-- One section record (source lines 83-115).  Only ROMX/ROM0 sections carry
data and patches; `section["data"] = file.read(size)` is a raw read that can
silently return fewer than `size` bytes.  The source's combined
`"<IBII"` / `"<BI"` struct reads are modelled as consecutive field reads
(same bytes, same failure condition). -/
def parseSection (ver : Nat) (s : List Nat) : Except PErr (Sect × List Nat) :=
  match read_string [] s with
  | .error e => .error e
  | .ok (name, s) =>
    match readU32 s with
    | .error e => .error e
    | .ok (size, s) =>
      match readU8 s with
      | .error e => .error e
      | .ok (tb, s) =>
        match readU32 s with
        | .error e => .error e
        | .ok (org, s) =>
          match readU32 s with
          | .error e => .error e
          | .ok (bank, s) =>
            match sectypeOf tb with
            | .error e => .error e
            | .ok ty =>
              match (if 14 ≤ ver then
                       match readU8 s with
                       | .error e => .error e
                       | .ok (al, s) =>
                         match readU32 s with
                         | .error e => .error e
                         | .ok (off, s) => .ok (al, some off, s)
                     else
                       match readU32 s with
                       | .error e => .error e
                       | .ok (al, s) => .ok (al, none, s) :
                     Except PErr (Nat × Option Nat × List Nat)) with
              | .error e => .error e
              | .ok (al, off, s) =>
                if ty = sectype.ROMX ∨ ty = sectype.ROM0 then
                  let (dat, s) := readAvail size s
                  match readU32 s with
                  | .error e => .error e
                  | .ok (nPatches, s) =>
                    match parsePatches ver nPatches s with
                    | .error e => .error e
                    | .ok (ps, s) =>
                      .ok ({ sname := name, stype := ty, org := org,
                             bank := bank, align := al, offset := off,
                             data := dat, patches := ps }, s)
                else
                  .ok ({ sname := name, stype := ty, org := org, bank := bank,
                         align := al, offset := off, data := [],
                         patches := [] }, s)

def parseSections (ver : Nat) : Nat → List Nat → Except PErr (List Sect × List Nat)
  | 0, s => .ok ([], s)
  | n + 1, s =>
    match parseSection ver s with
    | .error e => .error e
    | .ok (sec, s) =>
      match parseSections ver n s with
      | .error e => .error e
      | .ok (secs, s) => .ok (sec :: secs, s)

/-- One assertion record (source lines 120-132).  When version ≥ 14 the source
executes `unpack_file("<II")` with the `file` argument missing (line 126),
which raises `TypeError` before reading any further bytes. -/
def parseAssertion (ver : Nat) (s : List Nat) : Except PErr (Assertion × List Nat) :=
  match read_string [] s with
  | .error e => .error e
  | .ok (fn, s) =>
    match readU32 s with
    | .error e => .error e
    | .ok (off, s) =>
      if 14 ≤ ver then .error .typeError
      else
        match readU8 s with
        | .error e => .error e
        | .ok (tb, s) =>
          match readU32 s with
          | .error e => .error e
          | .ok (rpnSize, s) =>
            match asserttypeOf tb with
            | .error e => .error e
            | .ok at0 =>
              let (rpn, s) := readAvail rpnSize s
              match read_string [] s with
              | .error e => .error e
              | .ok (msg, s) =>
                .ok ({ afilename := fn, offset := off, atype := at0,
                       rpn := rpn, message := msg }, s)

def parseAssertions (ver : Nat) : Nat → List Nat → Except PErr (List Assertion × List Nat)
  | 0, s => .ok ([], s)
  | n + 1, s =>
    match parseAssertion ver s with
    | .error e => .error e
    | .ok (a, s) =>
      match parseAssertions ver n s with
      | .error e => .error e
      | .ok (as0, s) => .ok (a :: as0, s)

/-- Byte values of the two magic tags: `RGB6` and `RGB9`. -/
def magicRGB6 : List Nat := [82, 71, 66, 54]

def magicRGB9 : List Nat := [82, 71, 66, 57]

/-- Magic/version resolution (source lines 55-62): the literal `RGB6` tag is
version 6; `RGB9` reads a u32 revision and yields `10 + revision`; anything
else is the unknown-format failure. -/
def resolveVersion (magic : List Nat) (s : List Nat) :
    Except PErr (Nat × List Nat) :=
  if magic = magicRGB6 then .ok (6, s)
  else if magic = magicRGB9 then
    match readU32 s with
    | .error e => .error e
    | .ok (rev, s) => .ok (10 + rev, s)
  else .error .unknownFormat

/-- `parse_object` (source lines 47-134) on the full byte stream of one file. -/
def parse_object (s : List Nat) : Except PErr ObjectFile :=
  match readExact 4 s with
  | .error e => .error e
  | .ok (magic, s) =>
    match resolveVersion magic s with
    | .error e => .error e
    | .ok (ver, s) =>
      if ver = 6 ∨ ver = 10 ∨ ver = 11 ∨ ver = 13 ∨ ver = 14 then
        match readU32 s with
        | .error e => .error e
        | .ok (nSyms, s) =>
          match readU32 s with
          | .error e => .error e
          | .ok (nSecs, s) =>
            match parseSymbols nSyms s with
            | .error e => .error e
            | .ok (syms, s) =>
              match parseSections ver nSecs s with
              | .error e => .error e
              | .ok (secs, s) =>
                if 13 ≤ ver then
                  match readU32 s with
                  | .error e => .error e
                  | .ok (nAsserts, s) =>
                    match parseAssertions ver nAsserts s with
                    | .error e => .error e
                    | .ok (as0, _) =>
                      .ok { version := ver, symbols := syms,
                            sections := secs, assertions := some as0 }
                else
                  .ok { version := ver, symbols := syms, sections := secs,
                        assertions := none }
      else .error .unsupportedVersion

/- Reference accumulator state (source lines 150-218).  Python dicts preserve
insertion order, so they are modelled as association lists with new keys
appended at the end. -/

abbrev SymMap := List (List Nat × Nat)

def lookupN : SymMap → List Nat → Option Nat
  | [], _ => none
  | (k, v) :: t, key => if k = key then some v else lookupN t key

def containsKey (m : SymMap) (key : List Nat) : Bool :=
  (lookupN m key).isSome

/-- `if name not in d: d[name] = 0` (source lines 170-171, 174-175, 178-179). -/
def ensure0 (m : SymMap) (key : List Nat) : SymMap :=
  if containsKey m key then m else m ++ [(key, 0)]

/-- `d[name] += 1`: raises `KeyError` when the key is absent. -/
def incr : SymMap → List Nat → Except PErr SymMap
  | [], _ => .error .keyError
  | (k, v) :: t, key =>
    if k = key then .ok ((k, v + 1) :: t)
    else
      match incr t key with
      | .error e => .error e
      | .ok t' => .ok ((k, v) :: t')

/-- Per-file symbol registration (source lines 168-179): every LOCAL name gets
an entry in the locals map, every IMPORT or EXPORT name in the globals map. -/
def registerSyms : List Symbol → SymMap → SymMap → SymMap × SymMap
  | [], l, g => (l, g)
  | sym :: rest, l, g =>
    match sym.stype with
    | .LOCAL => registerSyms rest (ensure0 l sym.name) g
    | .IMPORT => registerSyms rest l (ensure0 g sym.name)
    | .EXPORT => registerSyms rest l (ensure0 g sym.name)

/-- The inner skip of a 0x51 string operand (source lines 194-195):
`while rpn[pos] != 0: pos += 1`, viewed from the suffix starting right after
the opcode.  Returns the offset of the first zero byte in the suffix, or
`none` when the walk falls off the end (Python raises `IndexError` there). -/
def findZeroRel : List Nat → Option Nat
  | [] => none
  | b :: rest => if b = 0 then some 0 else (findZeroRel rest).map (· + 1)

/-- The RPN walk of one patch (source lines 190-208), with the reference
increments done inline exactly as in the source: a 0x50/0x81 operand looks the
index up in the file's symbol table and bumps the locals or globals count. -/
def scanPatch (syms : List Symbol) (rpn : List Nat) (l g : SymMap) (pos : Nat) :
    Except PErr (SymMap × SymMap) :=
  if h : pos < rpn.length then
    if rpn[pos] = 0x51 then
      match findZeroRel (rpn.drop (pos + 1)) with
      | none => .error .indexError
      | some k => scanPatch syms rpn l g (pos + 1 + k + 1)
    else if rpn[pos] = 0x80 then
      scanPatch syms rpn l g (pos + 5)
    else if rpn[pos] = 0x50 ∨ rpn[pos] = 0x81 then
      if pos + 5 ≤ rpn.length then
        match syms.get? (leNum ((rpn.drop (pos + 1)).take 4)) with
        | none => .error .indexError
        | some sym =>
          match sym.stype with
          | .LOCAL =>
            match incr l sym.name with
            | .error e => .error e
            | .ok l' => scanPatch syms rpn l' g (pos + 5)
          | _ =>
            match incr g sym.name with
            | .error e => .error e
            | .ok g' => scanPatch syms rpn l g' (pos + 5)
      else .error .structError
    else
      scanPatch syms rpn l g (pos + 1)
  else .ok (l, g)
termination_by rpn.length - pos
decreasing_by all_goals omega

/-- The spec's RPN Scanner view of the same walk (§4.3 of the spec): identical
cursor dispatch, but collecting the yielded symbol-table indices instead of
incrementing counts. -/
def scanRefs (rpn : List Nat) (pos : Nat) (acc : List Nat) :
    Except PErr (List Nat) :=
  if h : pos < rpn.length then
    if rpn[pos] = 0x51 then
      match findZeroRel (rpn.drop (pos + 1)) with
      | none => .error .indexError
      | some k => scanRefs rpn (pos + 1 + k + 1) acc
    else if rpn[pos] = 0x80 then
      scanRefs rpn (pos + 5) acc
    else if rpn[pos] = 0x50 ∨ rpn[pos] = 0x81 then
      if pos + 5 ≤ rpn.length then
        scanRefs rpn (pos + 5) (acc ++ [leNum ((rpn.drop (pos + 1)).take 4)])
      else .error .structError
    else
      scanRefs rpn (pos + 1) acc
  else .ok acc
termination_by rpn.length - pos
decreasing_by all_goals omega

/-- The names of non-LOCAL symbols referenced by a buffer's 0x50/0x81 operands
(in walk order), following the same dispatch as `scanPatch`; error paths of
the walk contribute nothing. -/
def globalRefsInRpn (syms : List Symbol) (rpn : List Nat) (pos : Nat) :
    List (List Nat) :=
  if h : pos < rpn.length then
    if rpn[pos] = 0x51 then
      match findZeroRel (rpn.drop (pos + 1)) with
      | none => []
      | some k => globalRefsInRpn syms rpn (pos + 1 + k + 1)
    else if rpn[pos] = 0x80 then
      globalRefsInRpn syms rpn (pos + 5)
    else if rpn[pos] = 0x50 ∨ rpn[pos] = 0x81 then
      if pos + 5 ≤ rpn.length then
        match syms.get? (leNum ((rpn.drop (pos + 1)).take 4)) with
        | none => []
        | some sym =>
          match sym.stype with
          | .LOCAL => globalRefsInRpn syms rpn (pos + 5)
          | _ => sym.name :: globalRefsInRpn syms rpn (pos + 5)
      else []
    else
      globalRefsInRpn syms rpn (pos + 1)
  else []
termination_by rpn.length - pos
decreasing_by all_goals omega

/-- The patch loop of one section (source line 187). -/
def processPatches (syms : List Symbol) :
    List Patch → SymMap → SymMap → Except PErr (SymMap × SymMap)
  | [], l, g => .ok (l, g)
  | p :: rest, l, g =>
    match scanPatch syms p.rpn l g 0 with
    | .error e => .error e
    | .ok (l', g') => processPatches syms rest l' g'

/-- Patch walks over a bare list of rpn buffers; `processSections` is proved
equal to this applied to `rpnsOf`, which is what makes the accumulator a
function of the symbol table and the scanned buffers alone. -/
def processRpns (syms : List Symbol) :
    List (List Nat) → SymMap → SymMap → Except PErr (SymMap × SymMap)
  | [], l, g => .ok (l, g)
  | rpn :: rest, l, g =>
    match scanPatch syms rpn l g 0 with
    | .error e => .error e
    | .ok (l', g') => processRpns syms rest l' g'

/-- The section loop of one file (source lines 185-186): only ROMX/ROM0
sections are scanned. -/
def processSections (syms : List Symbol) :
    List Sect → SymMap → SymMap → Except PErr (SymMap × SymMap)
  | [], l, g => .ok (l, g)
  | sec :: rest, l, g =>
    if sec.stype = sectype.ROMX ∨ sec.stype = sectype.ROM0 then
      match processPatches syms sec.patches l g with
      | .error e => .error e
      | .ok (l', g') => processSections syms rest l' g'
    else processSections syms rest l g

/-- Analysis-mode processing of one parsed file (source lines 164-208):
a fresh empty locals map, symbol registration, then the reference scan.
Returns the final (locals, globals) pair. -/
def processFile (g : SymMap) (obj : ObjectFile) : Except PErr (SymMap × SymMap) :=
  let lg := registerSyms obj.symbols [] g
  processSections obj.symbols obj.sections lg.1 lg.2

/-- The analysis-mode file loop (source lines 152-208) over already-parsed
objects, threading the process-wide globals map. -/
def runAnalysis : List ObjectFile → SymMap → Except PErr SymMap
  | [], g => .ok g
  | obj :: rest, g =>
    match processFile g obj with
    | .error e => .error e
    | .ok (_, g') => runAnalysis rest g'

/-- The final report (source lines 216-218): names whose count is 0, in the
dict's (insertion) order, one printed line per list element. -/
def unreferencedGlobals (g : SymMap) : List (List Nat) :=
  (g.filter (fun e => e.2 == 0)).map (fun e => e.1)

/- Derived views used to state the theorems. -/

def keysOf (m : SymMap) : List (List Nat) :=
  m.map (fun e => e.1)

/-- Reference count of a name, 0 when the key is absent. -/
def lookupCnt (m : SymMap) (key : List Nat) : Nat :=
  (lookupN m key).getD 0

/-- Names of a file's global (IMPORT or EXPORT) symbols, in table order. -/
def globalNamesOf (obj : ObjectFile) : List (List Nat) :=
  (obj.symbols.filter (fun sym => !(sym.stype == symtype.LOCAL))).map
    (fun sym => sym.name)

def importNames (obj : ObjectFile) : List (List Nat) :=
  (obj.symbols.filter (fun sym => sym.stype == symtype.IMPORT)).map
    (fun sym => sym.name)

def exportNames (obj : ObjectFile) : List (List Nat) :=
  (obj.symbols.filter (fun sym => sym.stype == symtype.EXPORT)).map
    (fun sym => sym.name)

def addIfNew (ks : List (List Nat)) (n : List Nat) : List (List Nat) :=
  if n ∈ ks then ks else ks ++ [n]

/-- Global symbol names in the order they are first encountered across a list
of files (each file's symbol table in order). -/
def firstEncounter (objs : List ObjectFile) : List (List Nat) :=
  objs.foldl (fun ks obj => (globalNamesOf obj).foldl addIfNew ks) []

/-- The rpn buffers the analysis scans for a section list: the patches of the
ROMX/ROM0 sections, in order. -/
def rpnsOf (secs : List Sect) : List (List Nat) :=
  ((secs.filter (fun sec =>
      sec.stype == sectype.ROMX || sec.stype == sectype.ROM0)).map
    (fun sec => sec.patches.map (fun p => p.rpn))).flatten

/-- All names of non-LOCAL symbols referenced by a file's scanned patches. -/
def globalRefsOf (obj : ObjectFile) : List (List Nat) :=
  ((rpnsOf obj.sections).map
    (fun rpn => globalRefsInRpn obj.symbols rpn 0)).flatten

/- A token view of rpn buffers, used to state what a well-formed buffer is and
what the scanner yields on it. -/

inductive RTok where
  | strOp (s : List Nat)
  | immOp (payload : List Nat)
  | symOp (op : Nat) (payload : List Nat)
  | plain (b : Nat)
deriving DecidableEq

/-- The bytes of one opcode unit. -/
def emit : RTok → List Nat
  | .strOp s => 0x51 :: (s ++ [0])
  | .immOp p => 0x80 :: p
  | .symOp op p => op :: p
  | .plain b => [b]

/-- Well-formedness of one opcode unit: a 0x51 string payload contains no zero
byte, 4-byte payloads are indeed 4 bytes, and a plain byte is none of the four
special opcodes. -/
def tokWF : RTok → Prop
  | .strOp s => 0 ∉ s
  | .immOp p => p.length = 4
  | .symOp op p => (op = 0x50 ∨ op = 0x81) ∧ p.length = 4
  | .plain b => b ≠ 0x50 ∧ b ≠ 0x51 ∧ b ≠ 0x80 ∧ b ≠ 0x81

instance : DecidablePred tokWF := fun t =>
  match t with
  | .strOp s => inferInstanceAs (Decidable (0 ∉ s))
  | .immOp p => inferInstanceAs (Decidable (p.length = 4))
  | .symOp op p =>
    inferInstanceAs (Decidable ((op = 0x50 ∨ op = 0x81) ∧ p.length = 4))
  | .plain b =>
    inferInstanceAs (Decidable (b ≠ 0x50 ∧ b ≠ 0x51 ∧ b ≠ 0x80 ∧ b ≠ 0x81))

/-- The indices one opcode unit yields: only symbol operands yield. -/
def tokYield : RTok → List Nat
  | .symOp _ p => [leNum p]
  | _ => []

/- A step-indexed view of the scan loop, used for the termination claim. -/

inductive ScanState where
  | running (pos : Nat)
  | finished
  | failed
deriving DecidableEq

/-- One iteration of the outer scan loop as a state transformer: `running pos`
is the loop head with the cursor at `pos`; `finished` is normal exit
(`pos < len` fails); `failed` is a raised exception (IndexError in the string
skip, struct.error on a short 0x50/0x81 slice). -/
def scanStep (rpn : List Nat) : ScanState → ScanState
  | .running pos =>
    if h : pos < rpn.length then
      if rpn[pos] = 0x51 then
        match findZeroRel (rpn.drop (pos + 1)) with
        | none => .failed
        | some k => .running (pos + 1 + k + 1)
      else if rpn[pos] = 0x80 then .running (pos + 5)
      else if rpn[pos] = 0x50 ∨ rpn[pos] = 0x81 then
        if pos + 5 ≤ rpn.length then .running (pos + 5) else .failed
      else .running (pos + 1)
    else .finished
  | st => st

/-- Cursor positions the outer loop can actually reach on a given buffer. -/
inductive ScanReach (rpn : List Nat) : Nat → Prop where
  | zero : ScanReach rpn 0
  | step (pos pos' : Nat) : ScanReach rpn pos →
      scanStep rpn (.running pos) = .running pos' → ScanReach rpn pos'

/- Concrete records used by the closed demonstration theorems: symbol name
`X` is byte 88, `Y` is byte 89. -/

def symXImport : Symbol :=
  { name := [88], stype := .IMPORT, sfilename := none, line_num := none,
    sect := none, value := none }

def symXExport : Symbol :=
  { name := [88], stype := .EXPORT, sfilename := some [], line_num := some 1,
    sect := some 0, value := some 0 }

def symYExport : Symbol :=
  { name := [89], stype := .EXPORT, sfilename := some [], line_num := some 1,
    sect := some 0, value := some 0 }

/-- A patch whose expression references symbol-table index 0. -/
def patchRef0 : Patch :=
  { pfilename := [], line := some 1, offset := 0, pcsectionid := none,
    pcoffset := none, ptype := .BYTE, rpn := [0x50, 0, 0, 0, 0] }

def sectRef0 : Sect :=
  { sname := [], stype := .ROMX, org := 0, bank := 0, align := 0,
    offset := none, data := [], patches := [patchRef0] }

/-- File A of the C8 scenario: imports `X`, never references it. -/
def objA : ObjectFile :=
  { version := 10, symbols := [symXImport], sections := [],
    assertions := none }

/-- File B of the C8 scenario: exports `X` and references it once. -/
def objB : ObjectFile :=
  { version := 10, symbols := [symXExport], sections := [sectRef0],
    assertions := none }

/-- A file exporting `Y` with no patches at all. -/
def objY : ObjectFile :=
  { version := 10, symbols := [symYExport], sections := [],
    assertions := none }

def demoAssertion : Assertion :=
  { afilename := [], offset := 0, atype := .WARN, rpn := [0x50, 0, 0, 0, 0],
    message := [] }

/-- `objB` with a different assertions field. -/
def objBAsserts : ObjectFile :=
  { version := 10, symbols := [symXExport], sections := [sectRef0],
    assertions := some [demoAssertion] }

/-- A version-6 stream whose last field is a patch expression buffer declared
as 5 bytes, of which only 2 (`[7, 7]`) are present: magic `RGB6`; 0 symbols;
1 section (name ``, size 0, type 2 = ROMX, org 0, bank 0, align 0); 1 patch
(file name ``, line 3, offset 0, type 0, rpn size 5). -/
def c5bytes : List Nat :=
  [82, 71, 66, 54] ++
  [0, 0, 0, 0] ++ [1, 0, 0, 0] ++
  [0] ++
  [0, 0, 0, 0] ++ [2] ++ [0, 0, 0, 0] ++ [0, 0, 0, 0] ++
  [0, 0, 0, 0] ++
  [1, 0, 0, 0] ++
  [0] ++ [3, 0, 0, 0] ++ [0, 0, 0, 0] ++ [0] ++ [5, 0, 0, 0] ++
  [7, 7]

/-- A complete version-6 stream whose every byte belongs to a fixed-width
field or a name string — no data bytes and no patches, so no raw buffer
reads: magic `RGB6`; 0 symbols; 1 ROMX section (empty name, size 0, org 0,
bank 0, align 0) with 0 patches. -/
def c5full : List Nat :=
  [82, 71, 66, 54] ++
  [0, 0, 0, 0] ++ [1, 0, 0, 0] ++
  [0] ++
  [0, 0, 0, 0] ++ [2] ++ [0, 0, 0, 0] ++ [0, 0, 0, 0] ++
  [0, 0, 0, 0] ++
  [0, 0, 0, 0]

/-- What `parse_object` returns on `c5bytes`: a complete object whose patch
carries the silently truncated 2-byte buffer. -/
def c5obj : ObjectFile :=
  { version := 6
    symbols := []
    sections := [{ sname := [], stype := .ROMX, org := 0, bank := 0,
                   align := 0, offset := none, data := [],
                   patches := [{ pfilename := [], line := some 3, offset := 0,
                                 pcsectionid := none, pcoffset := none,
                                 ptype := .BYTE, rpn := [7, 7] }] }]
    assertions := none }

/-- A version-14 stream with one assertion: magic `RGB9`, revision 4;
0 symbols; 0 sections; 1 assertion (file name ``, offset 9), followed by
8 further bytes that line 126 of the source would have to read. -/
def c6bytes : List Nat :=
  [82, 71, 66, 57] ++ [4, 0, 0, 0] ++
  [0, 0, 0, 0] ++ [0, 0, 0, 0] ++
  [1, 0, 0, 0] ++
  [0] ++ [9, 0, 0, 0] ++
  [1, 0, 0, 0, 2, 0, 0, 0]

/-- A version-14 stream with one ROMX section and one patch (offset 7,
pc section id 1, pc offset 2, empty expression) and no assertions. -/
def c7bytes : List Nat :=
  [82, 71, 66, 57] ++ [4, 0, 0, 0] ++
  [0, 0, 0, 0] ++ [1, 0, 0, 0] ++
  [0] ++
  [0, 0, 0, 0] ++ [2] ++ [0, 0, 0, 0] ++ [0, 0, 0, 0] ++
  [0] ++ [0, 0, 0, 0] ++
  [1, 0, 0, 0] ++
  [0] ++ [7, 0, 0, 0] ++ [1, 0, 0, 0] ++ [2, 0, 0, 0] ++
  [0] ++ [0, 0, 0, 0] ++
  [0, 0, 0, 0]

def c7patch : Patch :=
  { pfilename := [], line := none, offset := 7, pcsectionid := some 1,
    pcoffset := some 2, ptype := .BYTE, rpn := [] }

def c7sect : Sect :=
  { sname := [], stype := .ROMX, org := 0, bank := 0, align := 0,
    offset := some 0, data := [], patches := [c7patch] }

def c7obj : ObjectFile :=
  { version := 14, symbols := [], sections := [c7sect],
    assertions := some [] }

/- Lemmas about the association-list model of Python dicts. -/

theorem lookupN_append_of_none (m m' : SymMap) (k : List Nat)
    (h : lookupN m k = none) : lookupN (m ++ m') k = lookupN m' k := by
  induction m with
  | nil => rfl
  | cons e t ih =>
    obtain ⟨a, b⟩ := e
    by_cases hak : a = k
    · simp [lookupN, hak] at h
    · simp only [lookupN, hak, if_false, List.cons_append] at *
      exact ih h

theorem lookupN_append_of_some (m m' : SymMap) (k : List Nat) (v : Nat)
    (h : lookupN m k = some v) : lookupN (m ++ m') k = some v := by
  induction m with
  | nil => simp [lookupN] at h
  | cons e t ih =>
    obtain ⟨a, b⟩ := e
    by_cases hak : a = k
    · simp only [lookupN, hak, if_true] at *
      exact h
    · simp only [lookupN, hak, if_false, List.cons_append] at *
      exact ih h

theorem containsKey_eq_mem (m : SymMap) (k : List Nat) :
    containsKey m k = true ↔ k ∈ keysOf m := by
  induction m with
  | nil => simp [containsKey, lookupN, keysOf]
  | cons e t ih =>
    obtain ⟨a, b⟩ := e
    by_cases hak : a = k
    · subst hak
      simp [containsKey, lookupN, keysOf]
    · have h1 : containsKey ((a, b) :: t) k = containsKey t k := by
        simp [containsKey, lookupN, hak]
      rw [h1, ih]
      simp only [keysOf, List.map_cons, List.mem_cons]
      constructor
      · exact Or.inr
      · rintro (hk | hk)
        · exact absurd hk.symm hak
        · exact hk

theorem lookupN_ensure0_self (m : SymMap) (k : List Nat) :
    lookupN (ensure0 m k) k = some (lookupCnt m k) := by
  unfold ensure0 containsKey lookupCnt
  cases h : lookupN m k with
  | some v => simp [h]
  | none =>
    simp only [h, Option.isSome_none, Bool.false_eq_true, if_false,
      Option.getD_none]
    rw [lookupN_append_of_none m _ k h]
    simp [lookupN]

theorem lookupN_ensure0_other (m : SymMap) (k k' : List Nat) (h : k' ≠ k) :
    lookupN (ensure0 m k) k' = lookupN m k' := by
  unfold ensure0
  split
  · rfl
  · cases hm : lookupN m k' with
    | some v => exact lookupN_append_of_some m _ k' v hm
    | none =>
      rw [lookupN_append_of_none m _ k' hm]
      have hkk : ¬(k = k') := fun he => h he.symm
      simp [lookupN, hkk]

theorem keysOf_ensure0 (m : SymMap) (k : List Nat) :
    keysOf (ensure0 m k) = addIfNew (keysOf m) k := by
  unfold ensure0 addIfNew
  by_cases h : containsKey m k
  · rw [if_pos h, if_pos ((containsKey_eq_mem m k).1 h)]
  · rw [if_neg h, if_neg (fun hm => h ((containsKey_eq_mem m k).2 hm))]
    simp [keysOf]

theorem incr_lookup_self (m m' : SymMap) (k : List Nat)
    (h : incr m k = .ok m') : lookupN m' k = some (lookupCnt m k + 1) := by
  induction m generalizing m' with
  | nil => simp [incr] at h
  | cons e t ih =>
    obtain ⟨a, b⟩ := e
    by_cases hak : a = k
    · subst hak
      simp only [incr, if_pos rfl] at h
      cases h
      simp [lookupN, lookupCnt]
    · simp only [incr, hak, if_false] at h
      cases ht : incr t k with
      | error e => rw [ht] at h; cases h
      | ok t' =>
        rw [ht] at h
        cases h
        simp only [lookupN, lookupCnt, hak, if_false]
        exact ih t' ht

theorem incr_lookup_other (m m' : SymMap) (k k' : List Nat)
    (h : incr m k = .ok m') (hne : k' ≠ k) : lookupN m' k' = lookupN m k' := by
  induction m generalizing m' with
  | nil => simp [incr] at h
  | cons e t ih =>
    obtain ⟨a, b⟩ := e
    by_cases hak : a = k
    · subst hak
      simp only [incr, if_pos rfl] at h
      cases h
      have hkk : ¬(a = k') := fun he => hne he.symm
      simp [lookupN, hkk]
    · simp only [incr, hak, if_false] at h
      cases ht : incr t k with
      | error e => rw [ht] at h; cases h
      | ok t' =>
        rw [ht] at h
        cases h
        simp only [lookupN]
        split
        · rfl
        · exact ih t' ht

theorem incr_keys (m m' : SymMap) (k : List Nat) (h : incr m k = .ok m') :
    keysOf m' = keysOf m := by
  induction m generalizing m' with
  | nil => simp [incr] at h
  | cons e t ih =>
    obtain ⟨a, b⟩ := e
    by_cases hak : a = k
    · subst hak
      simp only [incr, if_pos rfl] at h
      cases h
      simp [keysOf]
    · simp only [incr, hak, if_false] at h
      cases ht : incr t k with
      | error e => rw [ht] at h; cases h
      | ok t' =>
        rw [ht] at h
        cases h
        have hk := ih t' ht
        simp only [keysOf, List.map_cons] at *
        rw [hk]

theorem lookupCnt_ensure0_le (m : SymMap) (k k' : List Nat) :
    lookupCnt m k' ≤ lookupCnt (ensure0 m k) k' := by
  by_cases hk : k' = k
  · subst hk
    unfold lookupCnt
    rw [lookupN_ensure0_self]
    simp [lookupCnt]
  · unfold lookupCnt
    rw [lookupN_ensure0_other m k k' hk]

theorem incr_cnt_le (m m' : SymMap) (k k' : List Nat)
    (h : incr m k = .ok m') : lookupCnt m k' ≤ lookupCnt m' k' := by
  by_cases hk : k' = k
  · subst hk
    unfold lookupCnt
    rw [incr_lookup_self m m' k' h]
    simp [lookupCnt]
  · unfold lookupCnt
    rw [incr_lookup_other m m' k k' h hk]

theorem incr_cnt_self (m m' : SymMap) (k : List Nat)
    (h : incr m k = .ok m') : lookupCnt m' k = lookupCnt m k + 1 := by
  unfold lookupCnt
  rw [incr_lookup_self m m' k h]
  rfl

theorem nodup_addIfNew (ks : List (List Nat)) (k : List Nat)
    (h : ks.Nodup) : (addIfNew ks k).Nodup := by
  unfold addIfNew
  by_cases hmem : k ∈ ks
  · rw [if_pos hmem]
    exact h
  · rw [if_neg hmem, List.nodup_append]
    refine ⟨h, List.nodup_singleton k, ?_⟩
    intro a ha hb
    rw [List.mem_singleton] at hb
    subst hb
    exact hmem ha

theorem nodup_foldl_addIfNew (names : List (List Nat)) :
    ∀ ks : List (List Nat), ks.Nodup → (names.foldl addIfNew ks).Nodup := by
  induction names with
  | nil => exact fun ks h => h
  | cons n rest ih =>
    intro ks h
    exact ih (addIfNew ks n) (nodup_addIfNew ks n h)

theorem lookupN_of_mem_nodup (m : SymMap) (k : List Nat) (v : Nat)
    (hn : (keysOf m).Nodup) (hm : (k, v) ∈ m) : lookupN m k = some v := by
  induction m with
  | nil => cases hm
  | cons e t ih =>
    obtain ⟨a, b⟩ := e
    simp only [keysOf, List.map_cons, List.nodup_cons] at hn
    rcases List.mem_cons.1 hm with he | ht
    · cases he
      simp [lookupN]
    · have hak : a ≠ k := by
        intro hak
        subst hak
        exact hn.1 (List.mem_map.2 ⟨(a, v), ht, rfl⟩)
      simp only [lookupN, hak, if_false]
      exact ih hn.2 ht

theorem unref_eq_filter_keys (m : SymMap) (hn : (keysOf m).Nodup) :
    unreferencedGlobals m =
      (keysOf m).filter (fun n => lookupN m n == some 0) := by
  induction m with
  | nil => rfl
  | cons e t ih =>
    obtain ⟨a, v⟩ := e
    simp only [keysOf, List.map_cons, List.nodup_cons] at hn
    have htail : (keysOf t).filter (fun n => lookupN ((a, v) :: t) n == some 0)
        = (keysOf t).filter (fun n => lookupN t n == some 0) := by
      apply List.filter_congr
      intro n hnmem
      have han : a ≠ n := fun he => hn.1 (he ▸ hnmem)
      simp [lookupN, han]
    have hself : lookupN ((a, v) :: t) a = some v := by simp [lookupN]
    have hkey : keysOf ((a, v) :: t) = a :: keysOf t := rfl
    rw [hkey, List.filter_cons, htail, ← ih hn.2]
    by_cases hv : v = 0
    · subst hv
      have ht : (lookupN ((a, 0) :: t) a == some 0) = true := by
        rw [hself]
        rfl
      rw [ht, if_pos rfl]
      simp [unreferencedGlobals, List.filter_cons]
    · have ht : (lookupN ((a, v) :: t) a == some 0) = false := by
        rw [hself]
        simp [hv]
      rw [ht]
      simp only [Bool.false_eq_true, if_false]
      simp [unreferencedGlobals, List.filter_cons, hv]

theorem containsKey_ensure0_self (m : SymMap) (k : List Nat) :
    containsKey (ensure0 m k) k = true := by
  unfold containsKey
  rw [lookupN_ensure0_self]
  rfl

theorem containsKey_ensure0_mono (m : SymMap) (k k' : List Nat)
    (h : containsKey m k' = true) : containsKey (ensure0 m k) k' = true := by
  by_cases hk : k' = k
  · subst hk
    exact containsKey_ensure0_self m k'
  · unfold containsKey at *
    rw [lookupN_ensure0_other m k k' hk]
    exact h

/- Lemmas about the per-file registration loop. -/

theorem registerSyms_containsKey_fst (syms : List Symbol) :
    ∀ l g k, containsKey l k = true →
      containsKey (registerSyms syms l g).1 k = true := by
  induction syms with
  | nil => exact fun l g k h => h
  | cons s0 rest ih =>
    intro l g k h
    cases hst : s0.stype <;> simp only [registerSyms, hst]
    · exact ih _ _ k (containsKey_ensure0_mono l s0.name k h)
    · exact ih _ _ k h
    · exact ih _ _ k h

theorem registerSyms_containsKey_snd (syms : List Symbol) :
    ∀ l g k, containsKey g k = true →
      containsKey (registerSyms syms l g).2 k = true := by
  induction syms with
  | nil => exact fun l g k h => h
  | cons s0 rest ih =>
    intro l g k h
    cases hst : s0.stype <;> simp only [registerSyms, hst]
    · exact ih _ _ k h
    · exact ih _ _ k (containsKey_ensure0_mono g s0.name k h)
    · exact ih _ _ k (containsKey_ensure0_mono g s0.name k h)

theorem registerSyms_mem (syms : List Symbol) :
    ∀ l g sym, sym ∈ syms →
      (sym.stype = symtype.LOCAL →
        containsKey (registerSyms syms l g).1 sym.name = true) ∧
      (sym.stype ≠ symtype.LOCAL →
        containsKey (registerSyms syms l g).2 sym.name = true) := by
  induction syms with
  | nil =>
    intro l g sym h
    cases h
  | cons s0 rest ih =>
    intro l g sym h
    rcases List.mem_cons.1 h with rfl | hmem
    · constructor
      · intro hl
        simp only [registerSyms, hl]
        exact registerSyms_containsKey_fst rest _ _ _
          (containsKey_ensure0_self l sym.name)
      · intro hg
        cases hst : sym.stype
        · exact absurd hst hg
        · simp only [registerSyms, hst]
          exact registerSyms_containsKey_snd rest _ _ _
            (containsKey_ensure0_self g sym.name)
        · simp only [registerSyms, hst]
          exact registerSyms_containsKey_snd rest _ _ _
            (containsKey_ensure0_self g sym.name)
    · cases hst : s0.stype <;> simp only [registerSyms, hst] <;>
        exact ih _ _ sym hmem

theorem registerSyms_keys_snd (syms : List Symbol) :
    ∀ l g, keysOf (registerSyms syms l g).2 =
      ((syms.filter (fun sym => !(sym.stype == symtype.LOCAL))).map
        (fun sym => sym.name)).foldl addIfNew (keysOf g) := by
  induction syms with
  | nil =>
    intro l g
    rfl
  | cons s0 rest ih =>
    intro l g
    cases hst : s0.stype
    · have hred : (s0 :: rest).filter (fun sym => !(sym.stype == symtype.LOCAL))
          = rest.filter (fun sym => !(sym.stype == symtype.LOCAL)) := by
        rw [List.filter_cons]
        simp [hst]
      simp only [registerSyms, hst, hred]
      exact ih _ _
    · have hred : (s0 :: rest).filter (fun sym => !(sym.stype == symtype.LOCAL))
          = s0 :: rest.filter (fun sym => !(sym.stype == symtype.LOCAL)) := by
        rw [List.filter_cons]
        simp [hst]
      simp only [registerSyms, hst, hred, List.map_cons, List.foldl_cons]
      rw [ih _ _, keysOf_ensure0]
    · have hred : (s0 :: rest).filter (fun sym => !(sym.stype == symtype.LOCAL))
          = s0 :: rest.filter (fun sym => !(sym.stype == symtype.LOCAL)) := by
        rw [List.filter_cons]
        simp [hst]
      simp only [registerSyms, hst, hred, List.map_cons, List.foldl_cons]
      rw [ih _ _, keysOf_ensure0]

theorem registerSyms_cnt_le (syms : List Symbol) :
    ∀ l g k, lookupCnt g k ≤ lookupCnt (registerSyms syms l g).2 k := by
  induction syms with
  | nil => exact fun l g k => Nat.le_refl _
  | cons s0 rest ih =>
    intro l g k
    cases hst : s0.stype <;> simp only [registerSyms, hst]
    · exact ih _ _ k
    · exact Nat.le_trans (lookupCnt_ensure0_le g s0.name k) (ih _ _ k)
    · exact Nat.le_trans (lookupCnt_ensure0_le g s0.name k) (ih _ _ k)

theorem registerSyms_nodup_snd (syms : List Symbol) (l g : SymMap)
    (h : (keysOf g).Nodup) : (keysOf (registerSyms syms l g).2).Nodup := by
  rw [registerSyms_keys_snd]
  exact nodup_foldl_addIfNew _ _ h

/-- Effect of one patch walk on the globals map: keys are unchanged, counts
never decrease, and every referenced non-LOCAL name gains at least one. -/
theorem scanPatch_globals (syms : List Symbol) (rpn : List Nat) :
    ∀ l g pos l' g', scanPatch syms rpn l g pos = .ok (l', g') →
      keysOf g' = keysOf g ∧
      (∀ k, lookupCnt g k ≤ lookupCnt g' k) ∧
      (∀ k, k ∈ globalRefsInRpn syms rpn pos →
        lookupCnt g k + 1 ≤ lookupCnt g' k) := by
  intro l0 g0 pos0
  induction l0, g0, pos0 using scanPatch.induct syms rpn with
  | case1 l g pos h h51 hfz =>
    intro l' g' hok
    unfold scanPatch at hok
    simp only [dif_pos h, if_pos h51, hfz] at hok
    cases hok
  | case2 l g pos h h51 k hfz ih =>
    intro l' g' hok
    unfold scanPatch at hok
    simp only [dif_pos h, if_pos h51, hfz] at hok
    have hrefs : globalRefsInRpn syms rpn pos
        = globalRefsInRpn syms rpn (pos + 1 + k + 1) := by
      conv_lhs => unfold globalRefsInRpn
      simp only [dif_pos h, if_pos h51, hfz]
    rw [hrefs]
    exact ih l' g' hok
  | case3 l g pos h h51 h80 ih =>
    intro l' g' hok
    unfold scanPatch at hok
    simp only [dif_pos h, if_neg h51, if_pos h80] at hok
    have hrefs : globalRefsInRpn syms rpn pos
        = globalRefsInRpn syms rpn (pos + 5) := by
      conv_lhs => unfold globalRefsInRpn
      simp only [dif_pos h, if_neg h51, if_pos h80]
    rw [hrefs]
    exact ih l' g' hok
  | case4 l g pos h h51 h80 hor hle hget =>
    intro l' g' hok
    unfold scanPatch at hok
    simp only [dif_pos h, if_neg h51, if_neg h80, if_pos hor, if_pos hle,
      hget] at hok
    cases hok
  | case5 l g pos h h51 h80 hor hle sym hget hloc e hincr =>
    intro l' g' hok
    unfold scanPatch at hok
    simp only [dif_pos h, if_neg h51, if_neg h80, if_pos hor, if_pos hle,
      hget, hloc, hincr] at hok
    cases hok
  | case6 l g pos h h51 h80 hor hle sym hget hloc t' hincr ih =>
    intro l' g' hok
    unfold scanPatch at hok
    simp only [dif_pos h, if_neg h51, if_neg h80, if_pos hor, if_pos hle,
      hget, hloc, hincr] at hok
    have hrefs : globalRefsInRpn syms rpn pos
        = globalRefsInRpn syms rpn (pos + 5) := by
      conv_lhs => unfold globalRefsInRpn
      simp only [dif_pos h, if_neg h51, if_neg h80, if_pos hor, if_pos hle,
        hget, hloc]
    rw [hrefs]
    exact ih l' g' hok
  | case7 l g pos h h51 h80 hor hle sym hget e hincr hnl =>
    intro l' g' hok
    cases hst : sym.stype
    · exact (hnl hst).elim
    · unfold scanPatch at hok
      simp only [dif_pos h, if_neg h51, if_neg h80, if_pos hor, if_pos hle,
        hget, hst, hincr] at hok
      cases hok
    · unfold scanPatch at hok
      simp only [dif_pos h, if_neg h51, if_neg h80, if_pos hor, if_pos hle,
        hget, hst, hincr] at hok
      cases hok
  | case8 l g pos h h51 h80 hor hle sym hget t' hincr hnl ih =>
    intro l' g' hok
    have hrefs : globalRefsInRpn syms rpn pos
        = sym.name :: globalRefsInRpn syms rpn (pos + 5) := by
      cases hst : sym.stype
      · exact (hnl hst).elim
      · conv_lhs => unfold globalRefsInRpn
        simp only [dif_pos h, if_neg h51, if_neg h80, if_pos hor, if_pos hle,
          hget, hst]
      · conv_lhs => unfold globalRefsInRpn
        simp only [dif_pos h, if_neg h51, if_neg h80, if_pos hor, if_pos hle,
          hget, hst]
    have hok' : scanPatch syms rpn l t' (pos + 5) = .ok (l', g') := by
      cases hst : sym.stype
      · exact (hnl hst).elim
      · unfold scanPatch at hok
        simp only [dif_pos h, if_neg h51, if_neg h80, if_pos hor, if_pos hle,
          hget, hst, hincr] at hok
        exact hok
      · unfold scanPatch at hok
        simp only [dif_pos h, if_neg h51, if_neg h80, if_pos hor, if_pos hle,
          hget, hst, hincr] at hok
        exact hok
    obtain ⟨hkeys, hmono, href⟩ := ih l' g' hok'
    refine ⟨hkeys.trans (incr_keys g t' sym.name hincr), ?_, ?_⟩
    · intro k
      exact Nat.le_trans (incr_cnt_le g t' sym.name k hincr) (hmono k)
    · intro k hk
      rw [hrefs] at hk
      rcases List.mem_cons.1 hk with rfl | hk'
      · have h1 := incr_cnt_self g t' sym.name hincr
        have h2 := hmono sym.name
        omega
      · have h1 := incr_cnt_le g t' sym.name k hincr
        have h2 := href k hk'
        omega
  | case9 l g pos h h51 h80 hor hle =>
    intro l' g' hok
    unfold scanPatch at hok
    simp only [dif_pos h, if_neg h51, if_neg h80, if_pos hor, if_neg hle]
      at hok
    cases hok
  | case10 l g pos h h51 h80 hnor ih =>
    intro l' g' hok
    unfold scanPatch at hok
    simp only [dif_pos h, if_neg h51, if_neg h80, if_neg hnor] at hok
    have hrefs : globalRefsInRpn syms rpn pos
        = globalRefsInRpn syms rpn (pos + 1) := by
      conv_lhs => unfold globalRefsInRpn
      simp only [dif_pos h, if_neg h51, if_neg h80, if_neg hnor]
    rw [hrefs]
    exact ih l' g' hok
  | case11 l g pos h =>
    intro l' g' hok
    unfold scanPatch at hok
    simp only [dif_neg h, Except.ok.injEq, Prod.mk.injEq] at hok
    obtain ⟨rfl, rfl⟩ := hok
    have hrefs : globalRefsInRpn syms rpn pos = [] := by
      unfold globalRefsInRpn
      simp only [dif_neg h]
    refine ⟨rfl, fun k => Nat.le_refl _, ?_⟩
    intro k hk
    rw [hrefs] at hk
    cases hk

theorem processPatches_globals (syms : List Symbol) :
    ∀ ps : List Patch, ∀ l g l' g', processPatches syms ps l g = .ok (l', g') →
      keysOf g' = keysOf g ∧
      (∀ k, lookupCnt g k ≤ lookupCnt g' k) ∧
      (∀ k, k ∈ (ps.map (fun p => globalRefsInRpn syms p.rpn 0)).flatten →
        lookupCnt g k + 1 ≤ lookupCnt g' k) := by
  intro ps
  induction ps with
  | nil =>
    intro l g l' g' hok
    simp only [processPatches, Except.ok.injEq, Prod.mk.injEq] at hok
    obtain ⟨rfl, rfl⟩ := hok
    exact ⟨rfl, fun k => Nat.le_refl _, fun k hk => by cases hk⟩
  | cons p rest ih =>
    intro l g l' g' hok
    simp only [processPatches] at hok
    cases hsp : scanPatch syms p.rpn l g 0 with
    | error e =>
      rw [hsp] at hok
      cases hok
    | ok lg =>
      obtain ⟨l1, g1⟩ := lg
      rw [hsp] at hok
      obtain ⟨hk1, hm1, hr1⟩ := scanPatch_globals syms p.rpn l g 0 l1 g1 hsp
      obtain ⟨hk2, hm2, hr2⟩ := ih l1 g1 l' g' hok
      refine ⟨hk2.trans hk1, fun k => (hm1 k).trans (hm2 k), ?_⟩
      intro k hk
      simp only [List.map_cons, List.flatten_cons, List.mem_append] at hk
      rcases hk with hk | hk
      · exact Nat.le_trans (hr1 k hk) (hm2 k)
      · have h1 := hm1 k
        have h2 := hr2 k hk
        omega

theorem processPatches_eq_processRpns (syms : List Symbol) :
    ∀ ps : List Patch, ∀ l g, processPatches syms ps l g =
      processRpns syms (ps.map (fun p => p.rpn)) l g := by
  intro ps
  induction ps with
  | nil => intro l g; rfl
  | cons p rest ih =>
    intro l g
    simp only [processPatches, List.map_cons, processRpns]
    cases scanPatch syms p.rpn l g 0 with
    | error e => rfl
    | ok lg => exact ih lg.1 lg.2

theorem processRpns_append (syms : List Symbol) :
    ∀ xs ys : List (List Nat), ∀ l g, processRpns syms (xs ++ ys) l g =
      match processRpns syms xs l g with
      | .error e => .error e
      | .ok (l', g') => processRpns syms ys l' g' := by
  intro xs
  induction xs with
  | nil => intro ys l g; rfl
  | cons rpn rest ih =>
    intro ys l g
    simp only [List.cons_append, processRpns]
    cases scanPatch syms rpn l g 0 with
    | error e => rfl
    | ok lg => exact ih ys lg.1 lg.2

theorem rpnsOf_cons_scanned (sec : Sect) (rest : List Sect)
    (hty : sec.stype = sectype.ROMX ∨ sec.stype = sectype.ROM0) :
    rpnsOf (sec :: rest) = sec.patches.map (fun p => p.rpn) ++ rpnsOf rest := by
  have hb : (sec.stype == sectype.ROMX || sec.stype == sectype.ROM0) = true := by
    rcases hty with h | h <;> simp [h]
  unfold rpnsOf
  rw [List.filter_cons, if_pos hb]
  simp

theorem rpnsOf_cons_skipped (sec : Sect) (rest : List Sect)
    (hty : ¬(sec.stype = sectype.ROMX ∨ sec.stype = sectype.ROM0)) :
    rpnsOf (sec :: rest) = rpnsOf rest := by
  push_neg at hty
  have hb : (sec.stype == sectype.ROMX || sec.stype == sectype.ROM0) = false := by
    simp [hty.1, hty.2]
  unfold rpnsOf
  rw [List.filter_cons, hb]
  simp

theorem processSections_eq_processRpns (syms : List Symbol) :
    ∀ secs : List Sect, ∀ l g, processSections syms secs l g =
      processRpns syms (rpnsOf secs) l g := by
  intro secs
  induction secs with
  | nil => intro l g; rfl
  | cons sec rest ih =>
    intro l g
    by_cases hty : sec.stype = sectype.ROMX ∨ sec.stype = sectype.ROM0
    · rw [rpnsOf_cons_scanned sec rest hty, processRpns_append]
      simp only [processSections, if_pos hty,
        processPatches_eq_processRpns syms sec.patches l g]
      cases processRpns syms (sec.patches.map (fun p => p.rpn)) l g with
      | error e => rfl
      | ok lg => exact ih lg.1 lg.2
    · rw [rpnsOf_cons_skipped sec rest hty]
      simp only [processSections, if_neg hty]
      exact ih l g

theorem processSections_globals (syms : List Symbol) :
    ∀ secs : List Sect, ∀ l g l' g',
      processSections syms secs l g = .ok (l', g') →
      keysOf g' = keysOf g ∧
      (∀ k, lookupCnt g k ≤ lookupCnt g' k) ∧
      (∀ k, k ∈ ((rpnsOf secs).map
          (fun rpn => globalRefsInRpn syms rpn 0)).flatten →
        lookupCnt g k + 1 ≤ lookupCnt g' k) := by
  intro secs
  induction secs with
  | nil =>
    intro l g l' g' hok
    simp only [processSections, Except.ok.injEq, Prod.mk.injEq] at hok
    obtain ⟨rfl, rfl⟩ := hok
    exact ⟨rfl, fun k => Nat.le_refl _, fun k hk => by cases hk⟩
  | cons sec rest ih =>
    intro l g l' g' hok
    by_cases hty : sec.stype = sectype.ROMX ∨ sec.stype = sectype.ROM0
    · simp only [processSections, if_pos hty] at hok
      cases hpp : processPatches syms sec.patches l g with
      | error e =>
        rw [hpp] at hok
        cases hok
      | ok lg =>
        obtain ⟨l1, g1⟩ := lg
        rw [hpp] at hok
        obtain ⟨hk1, hm1, hr1⟩ :=
          processPatches_globals syms sec.patches l g l1 g1 hpp
        obtain ⟨hk2, hm2, hr2⟩ := ih l1 g1 l' g' hok
        refine ⟨hk2.trans hk1, fun k => (hm1 k).trans (hm2 k), ?_⟩
        intro k hk
        rw [rpnsOf_cons_scanned sec rest hty] at hk
        simp only [List.map_append, List.flatten_append, List.mem_append,
          List.map_map] at hk
        rcases hk with hk | hk
        · have hk' : k ∈ (sec.patches.map
              (fun p => globalRefsInRpn syms p.rpn 0)).flatten := by
            simpa [Function.comp] using hk
          exact Nat.le_trans (hr1 k hk') (hm2 k)
        · have h1 := hm1 k
          have h2 := hr2 k hk
          omega
    · simp only [processSections, if_neg hty] at hok
      rw [rpnsOf_cons_skipped sec rest hty]
      exact ih l g l' g' hok

theorem processFile_globals (g : SymMap) (obj : ObjectFile) (l' g' : SymMap)
    (hok : processFile g obj = .ok (l', g')) :
    keysOf g' = (globalNamesOf obj).foldl addIfNew (keysOf g) ∧
    (∀ k, lookupCnt g k ≤ lookupCnt g' k) ∧
    (∀ k, k ∈ globalRefsOf obj → lookupCnt g k + 1 ≤ lookupCnt g' k) := by
  unfold processFile at hok
  obtain ⟨hk2, hm2, hr2⟩ :=
    processSections_globals obj.symbols obj.sections _ _ l' g' hok
  refine ⟨?_, ?_, ?_⟩
  · rw [hk2, registerSyms_keys_snd]
    rfl
  · intro k
    exact Nat.le_trans (registerSyms_cnt_le obj.symbols [] g k) (hm2 k)
  · intro k hk
    have h1 := registerSyms_cnt_le obj.symbols [] g k
    have h2 := hr2 k hk
    omega

theorem runAnalysis_globals :
    ∀ objs : List ObjectFile, ∀ g0 g, runAnalysis objs g0 = .ok g →
      keysOf g = objs.foldl
        (fun ks obj => (globalNamesOf obj).foldl addIfNew ks) (keysOf g0) ∧
      (∀ k, lookupCnt g0 k ≤ lookupCnt g k) := by
  intro objs
  induction objs with
  | nil =>
    intro g0 g hok
    simp only [runAnalysis, Except.ok.injEq] at hok
    subst hok
    exact ⟨rfl, fun k => Nat.le_refl _⟩
  | cons obj rest ih =>
    intro g0 g hok
    simp only [runAnalysis] at hok
    cases hpf : processFile g0 obj with
    | error e =>
      rw [hpf] at hok
      cases hok
    | ok lg =>
      obtain ⟨l1, g1⟩ := lg
      rw [hpf] at hok
      obtain ⟨hk1, hm1, _⟩ := processFile_globals g0 obj l1 g1 hpf
      obtain ⟨hk2, hm2⟩ := ih g1 g hok
      refine ⟨?_, fun k => (hm1 k).trans (hm2 k)⟩
      rw [hk2, List.foldl_cons, hk1]

theorem runAnalysis_append (xs ys : List ObjectFile) :
    ∀ g0, runAnalysis (xs ++ ys) g0 =
      match runAnalysis xs g0 with
      | .error e => .error e
      | .ok g1 => runAnalysis ys g1 := by
  induction xs with
  | nil => intro g0; rfl
  | cons obj rest ih =>
    intro g0
    simp only [List.cons_append, runAnalysis]
    cases processFile g0 obj with
    | error e => rfl
    | ok lg => exact ih lg.2

theorem runAnalysis_nodup :
    ∀ objs : List ObjectFile, ∀ g0 g, runAnalysis objs g0 = .ok g →
      (keysOf g0).Nodup → (keysOf g).Nodup := by
  intro objs
  induction objs with
  | nil =>
    intro g0 g hok hnd
    simp only [runAnalysis, Except.ok.injEq] at hok
    subst hok
    exact hnd
  | cons obj rest ih =>
    intro g0 g hok hnd
    simp only [runAnalysis] at hok
    cases hpf : processFile g0 obj with
    | error e =>
      rw [hpf] at hok
      cases hok
    | ok lg =>
      obtain ⟨l1, g1⟩ := lg
      rw [hpf] at hok
      have hk1 := (processFile_globals g0 obj l1 g1 hpf).1
      refine ih g1 g hok ?_
      rw [hk1]
      exact nodup_foldl_addIfNew _ _ hnd

/-- C1: in analysis mode, after all input files are processed successfully,
the program prints exactly those symbol names whose accumulated count in the
globals map is 0, one per line, in the order the names were first encountered
across all files (`firstEncounter`), and no name with a positive count is
printed. -/
theorem C1_report_zero_count_first_encounter_order
    (objs : List ObjectFile) (g : SymMap)
    (h : runAnalysis objs [] = .ok g) :
    unreferencedGlobals g =
      (firstEncounter objs).filter (fun n => lookupN g n == some 0) ∧
    ∀ n ∈ unreferencedGlobals g, lookupN g n = some 0 := by
  have hkeys : keysOf g = firstEncounter objs := by
    rw [(runAnalysis_globals objs [] g h).1]
    rfl
  have hnd : (keysOf g).Nodup :=
    runAnalysis_nodup objs [] g h List.nodup_nil
  have hf := unref_eq_filter_keys g hnd
  refine ⟨by rw [hf, hkeys], ?_⟩
  intro n hn
  rw [hf] at hn
  exact eq_of_beq (List.mem_filter.1 hn).2

/-- C1 witness: one file exporting `Y` with no patches; the run succeeds and
the report is `[Y]`, matching the filtered first-encounter order. -/
theorem C1_report_zero_count_first_encounter_order_witness :
    unreferencedGlobals [([89], 0)] =
      (firstEncounter [objY]).filter
        (fun n => lookupN [([89], 0)] n == some 0) ∧
    ∀ n ∈ unreferencedGlobals [([89], 0)],
      lookupN [([89], 0)] n = some 0 :=
  C1_report_zero_count_first_encounter_order [objY] [([89], 0)] (by
    simp [runAnalysis, processFile, registerSyms, processSections, objY,
      symYExport, ensure0, containsKey, lookupN])

/-- C2: after the per-file registration step (a fresh locals map, the running
globals map), every symbol name in the file's symbol table is a key of the
locals map if its kind is LOCAL, and of the globals map if its kind is IMPORT
or EXPORT, with a count ≥ 0, even if never referenced. -/
theorem C2_registration_covers_symbol_table (g0 : SymMap) (obj : ObjectFile)
    (sym : Symbol) (hmem : sym ∈ obj.symbols) :
    (sym.stype = symtype.LOCAL →
      ∃ c, lookupN (registerSyms obj.symbols [] g0).1 sym.name = some c
        ∧ 0 ≤ c) ∧
    (sym.stype ≠ symtype.LOCAL →
      ∃ c, lookupN (registerSyms obj.symbols [] g0).2 sym.name = some c
        ∧ 0 ≤ c) := by
  obtain ⟨h1, h2⟩ := registerSyms_mem obj.symbols [] g0 sym hmem
  constructor
  · intro hl
    have hc := h1 hl
    unfold containsKey at hc
    rcases Option.isSome_iff_exists.1 hc with ⟨c, hcv⟩
    exact ⟨c, hcv, Nat.zero_le c⟩
  · intro hg
    have hc := h2 hg
    unfold containsKey at hc
    rcases Option.isSome_iff_exists.1 hc with ⟨c, hcv⟩
    exact ⟨c, hcv, Nat.zero_le c⟩

/-- C2 witness: registering `objY`'s table (one EXPORT symbol, never
referenced) gives `Y` a key in the globals map. -/
theorem C2_registration_covers_symbol_table_witness :
    (symYExport.stype = symtype.LOCAL →
      ∃ c, lookupN (registerSyms objY.symbols [] []).1 symYExport.name = some c
        ∧ 0 ≤ c) ∧
    (symYExport.stype ≠ symtype.LOCAL →
      ∃ c, lookupN (registerSyms objY.symbols [] []).2 symYExport.name = some c
        ∧ 0 ≤ c) :=
  C2_registration_covers_symbol_table [] objY symYExport (by
    simp [objY])

/-- C8: if one input file declares `X` as an Import that no patch expression
references, and a later input file declares `X` as an Export that some patch
expression references at least once, then `X` is not in the final
unreferenced-globals output: the globals map is shared across files and never
reset, so the count accumulated for `X` is at least 1. -/
theorem C8_globals_accumulate_across_files
    (pre mid post : List ObjectFile) (A B : ObjectFile) (X : List Nat)
    (g : SymMap)
    (hAimp : X ∈ importNames A) (hAnoref : X ∉ globalRefsOf A)
    (hBexp : X ∈ exportNames B) (hBref : X ∈ globalRefsOf B)
    (hrun : runAnalysis ((pre ++ A :: mid) ++ B :: post) [] = .ok g) :
    X ∉ unreferencedGlobals g := by
  rw [runAnalysis_append] at hrun
  cases h1 : runAnalysis (pre ++ A :: mid) [] with
  | error e =>
    rw [h1] at hrun
    cases hrun
  | ok g1 =>
    rw [h1] at hrun
    simp only [runAnalysis] at hrun
    cases h2 : processFile g1 B with
    | error e =>
      rw [h2] at hrun
      cases hrun
    | ok lg =>
      obtain ⟨l2, g2⟩ := lg
      rw [h2] at hrun
      have hc2 : 1 ≤ lookupCnt g2 X := by
        have := (processFile_globals g1 B l2 g2 h2).2.2 X hBref
        omega
      have hcg : 1 ≤ lookupCnt g X := by
        have := (runAnalysis_globals post g2 g hrun).2 X
        omega
      have hnd1 : (keysOf g1).Nodup :=
        runAnalysis_nodup _ [] g1 h1 List.nodup_nil
      have hnd2 : (keysOf g2).Nodup := by
        rw [(processFile_globals g1 B l2 g2 h2).1]
        exact nodup_foldl_addIfNew _ _ hnd1
      have hnd : (keysOf g).Nodup := runAnalysis_nodup post g2 g hrun hnd2
      intro hmem
      rw [unref_eq_filter_keys g hnd] at hmem
      have h0 : lookupN g X = some 0 := eq_of_beq (List.mem_filter.1 hmem).2
      have hz : lookupCnt g X = 0 := by
        unfold lookupCnt
        rw [h0]
        rfl
      omega

/-- C8 witness: the two-file scenario itself — file A imports `X`
(unreferenced), file B exports `X` and references it once; the final count is
1 and `X` is not reported. -/
theorem C8_globals_accumulate_across_files_witness :
    [88] ∉ unreferencedGlobals [([88], 1)] := by
  have hA : processFile [] objA = .ok ([], [([88], 0)]) := by
    simp [processFile, registerSyms, processSections, objA, symXImport,
      ensure0, containsKey, lookupN]
  have hsp : scanPatch [symXExport] [80, 0, 0, 0, 0] [] [([88], 0)] 0
      = .ok ([], [([88], 1)]) := by
    simp [scanPatch, symXExport, leNum, incr]
  have hB : processFile [([88], 0)] objB = .ok ([], [([88], 1)]) := by
    simp [processFile, registerSyms, processSections, processPatches, objB,
      sectRef0, patchRef0, ensure0, containsKey, lookupN, hsp,
      show symXExport.stype = symtype.EXPORT from rfl,
      show symXExport.name = [88] from rfl]
  have hrun : runAnalysis (([] ++ objA :: []) ++ objB :: []) []
      = .ok [([88], 1)] := by
    simp [runAnalysis, hA, hB]
  have hgr : globalRefsInRpn [symXExport] [80, 0, 0, 0, 0] 0 = [[88]] := by
    simp [globalRefsInRpn, symXExport, leNum]
  exact C8_globals_accumulate_across_files [] [] [] objA objB [88] [([88], 1)]
    (by simp [importNames, objA, symXImport])
    (by simp [globalRefsOf, objA, rpnsOf])
    (by simp [exportNames, objB, symXExport])
    (by simp [globalRefsOf, objB, rpnsOf, sectRef0, patchRef0, hgr])
    hrun

/-- C9: the locals and globals maps produced by a file's reference-counting
pass depend only on the file's symbol table and on the patch expressions of
its ROMX/ROM0 sections; in particular the assertions field is never read. -/
theorem C9_accumulator_ignores_assertions (g : SymMap) (obj obj' : ObjectFile)
    (hsym : obj.symbols = obj'.symbols)
    (hrpn : rpnsOf obj.sections = rpnsOf obj'.sections) :
    processFile g obj = processFile g obj' := by
  simp only [processFile, processSections_eq_processRpns, hsym, hrpn]

/-- C9 witness: `objB` and the same file with a non-empty assertions list
produce identical accumulator results. -/
theorem C9_accumulator_ignores_assertions_witness :
    processFile [] objB = processFile [] objBAsserts :=
  C9_accumulator_ignores_assertions [] objB objBAsserts rfl rfl

/- C4: divergence of the `read_string` loop on a stream with no terminator. -/

/-- C4 (code_bug record): when the remaining stream holds no zero byte, the
`read_string` loop never returns, no matter how many iterations are run —
at end of file `file.read(1)` returns `b''`, which is neither `None` nor
`b'\x00'`, so the loop body keeps appending nothing forever instead of
raising `TruncatedInputError`. -/
theorem C4_read_string_missing_terminator_loops
    (buf s : List Nat) (hz : 0 ∉ s) (n : Nat) :
    (rsRun n (buf, s)).isLeft = true := by
  induction n generalizing buf s with
  | zero => rfl
  | succ m ih =>
    cases s with
    | nil =>
      simp only [rsRun, read_string_step]
      exact ih buf [] hz
    | cons b rest =>
      have hb : ¬(b = 0) := fun hb0 => hz (by rw [← hb0]; exact List.mem_cons_self b rest)
      simp only [rsRun, read_string_step, if_neg hb]
      exact ih (buf ++ [b]) rest (fun hm => hz (List.mem_cons_of_mem b hm))

/-- C4 witness: a stream holding the single byte `A` and no terminator; after
5 iterations the loop is still running. -/
theorem C4_read_string_missing_terminator_loops_witness :
    (0 : Nat) ∉ [65] ∧ (rsRun 5 ([], [65])).isLeft = true :=
  ⟨by simp, C4_read_string_missing_terminator_loops [] [65] (by simp) 5⟩

/-- Adequacy of the step model: whenever the recursion equation for
`read_string` returns a string, the iterated loop reaches the same return
after finitely many steps. -/
theorem rsRun_agrees_read_string (s : List Nat) :
    ∀ buf r rest, read_string buf s = .ok (r, rest) →
      ∃ n, rsRun n (buf, s) = Sum.inr (r, rest) := by
  induction s with
  | nil =>
    intro buf r rest h
    cases h
  | cons b t ih =>
    intro buf r rest h
    by_cases hb : b = 0
    · subst hb
      simp only [read_string, if_true, Except.ok.injEq, Prod.mk.injEq] at h
      obtain ⟨hbr, hts⟩ := h
      subst hbr
      subst hts
      exact ⟨1, by simp [rsRun, read_string_step]⟩
    · simp only [read_string, if_neg hb] at h
      obtain ⟨n, hn⟩ := ih (buf ++ [b]) r rest h
      exact ⟨n + 1, by simp [rsRun, read_string_step, if_neg hb, hn]⟩

/- C5: short reads. -/

/-- C5 counterexample: `c5bytes` ends two bytes into a declared 5-byte
expression buffer, yet the whole parse succeeds, returning the object with
the silently truncated buffer `[7, 7]` — a short raw read is not fatal. -/
theorem C5_counterexample_short_rpn_parse_succeeds :
    parse_object c5bytes = .ok c5obj := rfl

/-- C5 amended: a short read in a fixed-width field (`unpack_file` /
`readExact`) raises the modelled `struct.error` and that error is the whole
parse's result — no partial `ObjectFile` is returned:
* the failing read itself yields the error and no bytes (first conjunct);
* any stream shorter than the 4-byte magic field makes the whole
  `parse_object` fail with that error (second conjunct);
* the buffer-free stream `c5full` parses completely, yet every proper
  truncation of it returns no object at all — the cut lands in a
  fixed-width field (`structError`) or in a name string (the `hangs`
  divergence of C4) (third and fourth conjuncts).
The raw reads used for section data and expression buffers (`file.read` /
`readAvail`) instead silently return just the remaining bytes, which is why
the counterexample stream still parses. -/
theorem C5_amended_fixed_width_short_read_fatal :
    (∀ n : Nat, ∀ s : List Nat, s.length < n →
      readExact n s = .error .structError ∧ readAvail n s = (s, [])) ∧
    (∀ s : List Nat, s.length < 4 →
      parse_object s = .error .structError) ∧
    (parse_object c5full).isOk = true ∧
    (∀ k : Nat, k < c5full.length →
      (parse_object (c5full.take k)).isOk = false) := by
  refine ⟨?_, ?_, by decide, by decide⟩
  · intro n s h
    constructor
    · unfold readExact
      rw [if_neg (by omega)]
    · unfold readAvail
      rw [List.take_of_length_le (by omega), List.drop_of_length_le (by omega)]
  · intro s h
    have h4 : readExact 4 s = .error .structError := by
      unfold readExact
      rw [if_neg (by omega)]
    unfold parse_object
    simp only [h4]

/- C6: the version-14 assertion path. -/

/-- C6 (code_bug record): on a version-14 stream containing one assertion
(with 8 further bytes available for `section_id`/`pc_offset`), the parse
fails with the modelled `TypeError`: line 126 of the source calls
`unpack_file("<II")` without the `file` argument, so the two u32 fields are
never read from the stream. -/
theorem C6_version14_assertion_raises_type_error :
    parse_object c6bytes = .error .typeError := rfl

/- C7: version gating of patch fields. -/

theorem readOptU32_isSome (c : Bool) (s : List Nat) (o : Option Nat)
    (s' : List Nat) (h : readOptU32 c s = .ok (o, s')) : o.isSome = c := by
  cases c
  · simp only [readOptU32, Bool.false_eq_true, if_false, Except.ok.injEq,
      Prod.mk.injEq] at h
    rw [← h.1]
    rfl
  · simp only [readOptU32, if_true] at h
    cases hr : readU32 s with
    | error e =>
      rw [hr] at h
      cases h
    | ok vs =>
      obtain ⟨v, s1⟩ := vs
      rw [hr] at h
      simp only [Except.ok.injEq, Prod.mk.injEq] at h
      rw [← h.1]
      rfl

theorem parsePatch_fields (ver : Nat) (s : List Nat) (p : Patch)
    (r : List Nat) (h : parsePatch ver s = .ok (p, r)) :
    (p.line.isSome ↔ ver < 11) ∧ (p.pcsectionid.isSome ↔ 14 ≤ ver) ∧
    (p.pcoffset.isSome ↔ 14 ≤ ver) := by
  unfold parsePatch at h
  cases h1 : read_string [] s with
  | error e =>
    simp only [h1] at h
    cases h
  | ok fs =>
    obtain ⟨fn, s1⟩ := fs
    simp only [h1] at h
    cases h2 : readOptU32 (decide (ver < 11)) s1 with
    | error e =>
      simp only [h2] at h
      cases h
    | ok ls =>
      obtain ⟨line, s2⟩ := ls
      simp only [h2] at h
      cases h3 : readU32 s2 with
      | error e =>
        simp only [h3] at h
        cases h
      | ok os =>
        obtain ⟨off, s3⟩ := os
        simp only [h3] at h
        cases h4 : readOptU32 (decide (14 ≤ ver)) s3 with
        | error e =>
          simp only [h4] at h
          cases h
        | ok ps =>
          obtain ⟨pcs, s4⟩ := ps
          simp only [h4] at h
          cases h5 : readOptU32 (decide (14 ≤ ver)) s4 with
          | error e =>
            simp only [h5] at h
            cases h
          | ok qs =>
            obtain ⟨pco, s5⟩ := qs
            simp only [h5] at h
            cases h6 : readU8 s5 with
            | error e =>
              simp only [h6] at h
              cases h
            | ok ts =>
              obtain ⟨tb, s6⟩ := ts
              simp only [h6] at h
              cases h7 : readU32 s6 with
              | error e =>
                simp only [h7] at h
                cases h
              | ok rs =>
                obtain ⟨rpnSize, s7⟩ := rs
                simp only [h7] at h
                cases h8 : patchtypeOf tb with
                | error e =>
                  simp only [h8] at h
                  cases h
                | ok pt =>
                  simp only [h8] at h
                  simp only [Except.ok.injEq, Prod.mk.injEq] at h
                  obtain ⟨hp, hr⟩ := h
                  subst hp
                  have e2 := readOptU32_isSome _ _ _ _ h2
                  have e4 := readOptU32_isSome _ _ _ _ h4
                  have e5 := readOptU32_isSome _ _ _ _ h5
                  refine ⟨?_, ?_, ?_⟩ <;> simp [e2, e4, e5]

theorem parsePatches_fields (ver : Nat) :
    ∀ n s ps r, parsePatches ver n s = .ok (ps, r) →
      ∀ p ∈ ps, (p.line.isSome ↔ ver < 11) ∧
        (p.pcsectionid.isSome ↔ 14 ≤ ver) ∧
        (p.pcoffset.isSome ↔ 14 ≤ ver) := by
  intro n
  induction n with
  | zero =>
    intro s ps r h p hp
    simp only [parsePatches, Except.ok.injEq, Prod.mk.injEq] at h
    rw [← h.1] at hp
    cases hp
  | succ m ih =>
    intro s ps r h p hp
    simp only [parsePatches] at h
    cases h1 : parsePatch ver s with
    | error e =>
      simp only [h1] at h
      cases h
    | ok qs =>
      obtain ⟨q, s1⟩ := qs
      simp only [h1] at h
      cases h2 : parsePatches ver m s1 with
      | error e =>
        simp only [h2] at h
        cases h
      | ok rs =>
        obtain ⟨qs2, s2⟩ := rs
        simp only [h2] at h
        simp only [Except.ok.injEq, Prod.mk.injEq] at h
        rw [← h.1] at hp
        rcases List.mem_cons.1 hp with rfl | hp'
        · exact parsePatch_fields ver s p s1 h1
        · exact ih s1 qs2 s2 h2 p hp'

theorem parseSection_fields (ver : Nat) (s : List Nat) (sec : Sect)
    (r : List Nat) (h : parseSection ver s = .ok (sec, r)) :
    ∀ p ∈ sec.patches, (p.line.isSome ↔ ver < 11) ∧
      (p.pcsectionid.isSome ↔ 14 ≤ ver) ∧
      (p.pcoffset.isSome ↔ 14 ≤ ver) := by
  unfold parseSection at h
  cases h1 : read_string [] s with
  | error e =>
    simp only [h1] at h
    cases h
  | ok ns =>
    obtain ⟨name, s1⟩ := ns
    simp only [h1] at h
    cases h2 : readU32 s1 with
    | error e =>
      simp only [h2] at h
      cases h
    | ok zs =>
      obtain ⟨size, s2⟩ := zs
      simp only [h2] at h
      cases h3 : readU8 s2 with
      | error e =>
        simp only [h3] at h
        cases h
      | ok ts =>
        obtain ⟨tb, s3⟩ := ts
        simp only [h3] at h
        cases h4 : readU32 s3 with
        | error e =>
          simp only [h4] at h
          cases h
        | ok os =>
          obtain ⟨org, s4⟩ := os
          simp only [h4] at h
          cases h5 : readU32 s4 with
          | error e =>
            simp only [h5] at h
            cases h
          | ok bs =>
            obtain ⟨bank, s5⟩ := bs
            simp only [h5] at h
            cases h6 : sectypeOf tb with
            | error e =>
              simp only [h6] at h
              cases h
            | ok ty =>
              simp only [h6] at h
              cases h7 : (if 14 ≤ ver then
                    match readU8 s5 with
                    | .error e => .error e
                    | .ok (al, s) =>
                      match readU32 s with
                      | .error e => .error e
                      | .ok (off, s) => .ok (al, some off, s)
                  else
                    match readU32 s5 with
                    | .error e => .error e
                    | .ok (al, s) => .ok (al, none, s) :
                  Except PErr (Nat × Option Nat × List Nat)) with
              | error e =>
                simp only [h7] at h
                cases h
              | ok als =>
                obtain ⟨al, off, s6⟩ := als
                simp only [h7] at h
                by_cases hty : ty = sectype.ROMX ∨ ty = sectype.ROM0
                · rw [if_pos hty] at h
                  cases h8 : readU32 (readAvail size s6).2 with
                  | error e =>
                    simp only [h8] at h
                    cases h
                  | ok nps =>
                    obtain ⟨nPatches, s7⟩ := nps
                    simp only [h8] at h
                    cases h9 : parsePatches ver nPatches s7 with
                    | error e =>
                      simp only [h9] at h
                      cases h
                    | ok pss =>
                      obtain ⟨ps, s8⟩ := pss
                      simp only [h9] at h
                      simp only [Except.ok.injEq, Prod.mk.injEq] at h
                      obtain ⟨hsec, hr⟩ := h
                      subst hsec
                      intro p hp
                      exact parsePatches_fields ver nPatches s7 ps s8 h9 p hp
                · rw [if_neg hty] at h
                  simp only [Except.ok.injEq, Prod.mk.injEq] at h
                  obtain ⟨hsec, hr⟩ := h
                  subst hsec
                  intro p hp
                  cases hp

theorem parseSections_fields (ver : Nat) :
    ∀ n s secs r, parseSections ver n s = .ok (secs, r) →
      ∀ sec ∈ secs, ∀ p ∈ sec.patches, (p.line.isSome ↔ ver < 11) ∧
        (p.pcsectionid.isSome ↔ 14 ≤ ver) ∧
        (p.pcoffset.isSome ↔ 14 ≤ ver) := by
  intro n
  induction n with
  | zero =>
    intro s secs r h sec hsec
    simp only [parseSections, Except.ok.injEq, Prod.mk.injEq] at h
    rw [← h.1] at hsec
    cases hsec
  | succ m ih =>
    intro s secs r h sec hsec
    simp only [parseSections] at h
    cases h1 : parseSection ver s with
    | error e =>
      simp only [h1] at h
      cases h
    | ok cs =>
      obtain ⟨c, s1⟩ := cs
      simp only [h1] at h
      cases h2 : parseSections ver m s1 with
      | error e =>
        simp only [h2] at h
        cases h
      | ok ds =>
        obtain ⟨cs2, s2⟩ := ds
        simp only [h2] at h
        simp only [Except.ok.injEq, Prod.mk.injEq] at h
        rw [← h.1] at hsec
        rcases List.mem_cons.1 hsec with rfl | hsec'
        · exact parseSection_fields ver s sec s1 h1
        · exact ih s1 cs2 s2 h2 sec hsec'

theorem parse_object_sections (s : List Nat) (obj : ObjectFile)
    (h : parse_object s = .ok obj) :
    ∃ n s1 s2, parseSections obj.version n s1 = .ok (obj.sections, s2) := by
  unfold parse_object at h
  cases h1 : readExact 4 s with
  | error e =>
    simp only [h1] at h
    cases h
  | ok ms =>
    obtain ⟨magic, s0⟩ := ms
    simp only [h1] at h
    cases h2 : resolveVersion magic s0 with
    | error e =>
      simp only [h2] at h
      cases h
    | ok vs =>
      obtain ⟨ver, s1⟩ := vs
      simp only [h2] at h
      by_cases hv : ver = 6 ∨ ver = 10 ∨ ver = 11 ∨ ver = 13 ∨ ver = 14
      · rw [if_pos hv] at h
        cases h3 : readU32 s1 with
        | error e =>
          simp only [h3] at h
          cases h
        | ok ns =>
          obtain ⟨nSyms, s2⟩ := ns
          simp only [h3] at h
          cases h4 : readU32 s2 with
          | error e =>
            simp only [h4] at h
            cases h
          | ok ms2 =>
            obtain ⟨nSecs, s3⟩ := ms2
            simp only [h4] at h
            cases h5 : parseSymbols nSyms s3 with
            | error e =>
              simp only [h5] at h
              cases h
            | ok ys =>
              obtain ⟨syms, s4⟩ := ys
              simp only [h5] at h
              cases h6 : parseSections ver nSecs s4 with
              | error e =>
                simp only [h6] at h
                cases h
              | ok zs =>
                obtain ⟨secs, s5⟩ := zs
                simp only [h6] at h
                by_cases h13 : 13 ≤ ver
                · rw [if_pos h13] at h
                  cases h7 : readU32 s5 with
                  | error e =>
                    simp only [h7] at h
                    cases h
                  | ok as1 =>
                    obtain ⟨nAsserts, s6⟩ := as1
                    simp only [h7] at h
                    cases h8 : parseAssertions ver nAsserts s6 with
                    | error e =>
                      simp only [h8] at h
                      cases h
                    | ok as2 =>
                      obtain ⟨asserts, s7⟩ := as2
                      simp only [h8] at h
                      simp only [Except.ok.injEq] at h
                      subst h
                      exact ⟨nSecs, s4, s5, h6⟩
                · rw [if_neg h13] at h
                  simp only [Except.ok.injEq] at h
                  subst h
                  exact ⟨nSecs, s4, s5, h6⟩
      · rw [if_neg hv] at h
        cases h

/-- C7: for every successfully parsed stream, each patch of each section has
its `source_line` field present iff the file's version is < 11, and its
`pc_section_id` / `pc_offset` fields present iff the version is ≥ 14. -/
theorem C7_patch_fields_version_gated (s : List Nat) (obj : ObjectFile)
    (h : parse_object s = .ok obj) (sec : Sect) (hsec : sec ∈ obj.sections)
    (p : Patch) (hp : p ∈ sec.patches) :
    (p.line.isSome ↔ obj.version < 11) ∧
    (p.pcsectionid.isSome ↔ 14 ≤ obj.version) ∧
    (p.pcoffset.isSome ↔ 14 ≤ obj.version) := by
  obtain ⟨n, s1, s2, hsecs⟩ := parse_object_sections s obj h
  exact parseSections_fields obj.version n s1 obj.sections s2 hsecs sec hsec
    p hp

/-- C7 witness: on the version-14 stream `c7bytes` the single parsed patch
has no `source_line` and has both pc fields. -/
theorem C7_patch_fields_version_gated_witness :
    (c7patch.line.isSome ↔ c7obj.version < 11) ∧
    (c7patch.pcsectionid.isSome ↔ 14 ≤ c7obj.version) ∧
    (c7patch.pcoffset.isSome ↔ 14 ≤ c7obj.version) :=
  C7_patch_fields_version_gated c7bytes c7obj rfl c7sect
    (by simp [c7obj]) c7patch (by simp [c7sect])

/- C3: the scanner's opcode contract on well-formed buffers. -/

/-- C3 counterexample: on the buffer `[0x50]` the scanner does not terminate
normally at the buffer's length having yielded the operand — the 4 payload
bytes are missing, `unpack` gets a short slice, and the scan aborts. -/
theorem C3_counterexample_truncated_symbol_operand :
    scanRefs [0x50] 0 [] = .error .structError := by
  simp [scanRefs]

/-- The first zero byte of `s ++ 0 :: rest` when `s` has no zero is right
after `s`. -/
theorem findZeroRel_prefix_zero (s rest : List Nat) (h : 0 ∉ s) :
    findZeroRel (s ++ 0 :: rest) = some s.length := by
  induction s with
  | nil => simp [findZeroRel]
  | cons b t ih =>
    have hb : ¬(b = 0) := fun hb0 => h (by rw [← hb0]; exact List.mem_cons_self b t)
    have ht : (0 : Nat) ∉ t := fun hm => h (List.mem_cons_of_mem b hm)
    simp [findZeroRel, hb, ih ht]

/-- The accumulator of `scanRefs` is a prefix of the final yield: scanning
with accumulator `acc` appends to scanning with an empty accumulator. -/
theorem scanRefs_acc (rpn : List Nat) :
    ∀ d pos acc, rpn.length - pos ≤ d →
      scanRefs rpn pos acc =
        match scanRefs rpn pos [] with
        | .error e => .error e
        | .ok ys => .ok (acc ++ ys) := by
  intro d
  induction d with
  | zero =>
    intro pos acc hd
    have hnl : ¬(pos < rpn.length) := by omega
    rw [scanRefs.eq_def rpn pos acc, scanRefs.eq_def rpn pos []]
    simp only [dif_neg hnl, List.append_nil]
  | succ m ih =>
    intro pos acc hd
    by_cases hlt : pos < rpn.length
    · rw [scanRefs.eq_def rpn pos acc, scanRefs.eq_def rpn pos []]
      simp only [dif_pos hlt]
      by_cases h51 : rpn[pos] = 0x51
      · simp only [if_pos h51]
        cases hz : findZeroRel (rpn.drop (pos + 1)) with
        | none => rfl
        | some k =>
          simp only []
          have hm : rpn.length - (pos + 1 + k + 1) ≤ m := by omega
          rw [ih (pos + 1 + k + 1) acc hm, ih (pos + 1 + k + 1) [] hm]
      · simp only [if_neg h51]
        by_cases h80 : rpn[pos] = 0x80
        · simp only [if_pos h80]
          have hm : rpn.length - (pos + 5) ≤ m := by omega
          rw [ih (pos + 5) acc hm, ih (pos + 5) [] hm]
        · simp only [if_neg h80]
          by_cases hor : rpn[pos] = 0x50 ∨ rpn[pos] = 0x81
          · simp only [if_pos hor]
            by_cases hle : pos + 5 ≤ rpn.length
            · simp only [if_pos hle]
              have hm : rpn.length - (pos + 5) ≤ m := by omega
              rw [ih (pos + 5) (acc ++ [leNum ((rpn.drop (pos + 1)).take 4)]) hm,
                ih (pos + 5) ([] ++ [leNum ((rpn.drop (pos + 1)).take 4)]) hm]
              cases scanRefs rpn (pos + 5) [] with
              | error e => rfl
              | ok ys => simp
            · simp only [if_neg hle]
          · simp only [if_neg hor]
            have hm : rpn.length - (pos + 1) ≤ m := by omega
            rw [ih (pos + 1) acc hm, ih (pos + 1) [] hm]
    · rw [scanRefs.eq_def rpn pos acc, scanRefs.eq_def rpn pos []]
      simp only [dif_neg hlt, List.append_nil]

/-- A scan that starts past a prefix never looks at the prefix: the cursor
can be shifted by the prefix's length. -/
theorem scanRefs_shift (pre B : List Nat) :
    ∀ d p acc, B.length - p ≤ d →
      scanRefs (pre ++ B) (pre.length + p) acc = scanRefs B p acc := by
  have hdrop : ∀ k j, j = pre.length + k → (pre ++ B).drop j = B.drop k := by
    intro k j hj
    subst hj
    rw [← List.drop_drop k pre.length (pre ++ B), List.drop_left]
  intro d
  induction d with
  | zero =>
    intro p acc hd
    have h1 : ¬(pre.length + p < (pre ++ B).length) := by
      simp only [List.length_append]
      omega
    have h2 : ¬(p < B.length) := by omega
    rw [scanRefs.eq_def (pre ++ B) (pre.length + p) acc, scanRefs.eq_def B p acc]
    rw [dif_neg h1, dif_neg h2]
  | succ m ih =>
    intro p acc hd
    by_cases hp : p < B.length
    · have h1 : pre.length + p < (pre ++ B).length := by
        simp only [List.length_append]
        omega
      have hq : (pre ++ B)[pre.length + p]? = B[p]? := by
        rw [List.getElem?_append_right (by omega : pre.length ≤ pre.length + p)]
        congr 1
        omega
      have hget : (pre ++ B)[pre.length + p] = B[p] := by
        rw [List.getElem?_eq_getElem h1, List.getElem?_eq_getElem hp] at hq
        exact Option.some.inj hq
      rw [scanRefs.eq_def (pre ++ B) (pre.length + p) acc, scanRefs.eq_def B p acc]
      rw [dif_pos h1, dif_pos hp, hget]
      by_cases h51 : B[p] = 0x51
      · simp only [if_pos h51]
        rw [hdrop (p + 1) (pre.length + p + 1) (by omega)]
        cases hz : findZeroRel (B.drop (p + 1)) with
        | none => rfl
        | some k =>
          simp only []
          rw [show pre.length + p + 1 + k + 1 = pre.length + (p + 1 + k + 1)
            from by omega]
          exact ih (p + 1 + k + 1) acc (by omega)
      · simp only [if_neg h51]
        by_cases h80 : B[p] = 0x80
        · simp only [if_pos h80]
          rw [show pre.length + p + 5 = pre.length + (p + 5) from by omega]
          exact ih (p + 5) acc (by omega)
        · simp only [if_neg h80]
          by_cases hor : B[p] = 0x50 ∨ B[p] = 0x81
          · simp only [if_pos hor]
            by_cases hl : p + 5 ≤ B.length
            · have hl1 : pre.length + p + 5 ≤ (pre ++ B).length := by
                simp only [List.length_append]
                omega
              rw [if_pos hl1, if_pos hl,
                hdrop (p + 1) (pre.length + p + 1) (by omega),
                show pre.length + p + 5 = pre.length + (p + 5) from by omega]
              exact ih (p + 5) _ (by omega)
            · have hl1 : ¬(pre.length + p + 5 ≤ (pre ++ B).length) := by
                simp only [List.length_append]
                omega
              rw [if_neg hl1, if_neg hl]
          · simp only [if_neg hor]
            rw [show pre.length + p + 1 = pre.length + (p + 1) from by omega]
            exact ih (p + 1) acc (by omega)
    · have h1 : ¬(pre.length + p < (pre ++ B).length) := by
        simp only [List.length_append]
        omega
      rw [scanRefs.eq_def (pre ++ B) (pre.length + p) acc, scanRefs.eq_def B p acc]
      rw [dif_neg h1, dif_neg (by omega : ¬(p < B.length))]

/-- Scanning one well-formed opcode unit advances the cursor exactly over its
bytes and appends exactly its yield. -/
theorem scanRefs_emit_step (t : RTok) (rest acc : List Nat) (hwf : tokWF t) :
    scanRefs (emit t ++ rest) 0 acc
      = scanRefs (emit t ++ rest) ((emit t).length) (acc ++ tokYield t) := by
  cases t with
  | strOp s =>
    have h0 : (0 : Nat) ∉ s := hwf
    rw [scanRefs.eq_def]
    have hlt : 0 < (emit (RTok.strOp s) ++ rest).length := by
      simp [emit]
    rw [dif_pos hlt]
    have hg : (emit (RTok.strOp s) ++ rest)[0] = 0x51 := by
      simp [emit]
    rw [hg, if_pos rfl]
    have hd : (emit (RTok.strOp s) ++ rest).drop (0 + 1) = s ++ 0 :: rest := by
      simp [emit]
    rw [hd, findZeroRel_prefix_zero s rest h0]
    simp only []
    have hlen : (emit (RTok.strOp s)).length = 0 + 1 + s.length + 1 := by
      simp [emit]
      omega
    rw [← hlen]
    simp [tokYield]
  | immOp p =>
    have hlen : p.length = 4 := hwf
    rw [scanRefs.eq_def]
    have hlt : 0 < (emit (RTok.immOp p) ++ rest).length := by
      simp [emit]
    rw [dif_pos hlt]
    have hg : (emit (RTok.immOp p) ++ rest)[0] = 0x80 := by
      simp [emit]
    rw [hg, if_neg (by norm_num), if_pos rfl]
    have hlen2 : (emit (RTok.immOp p)).length = 0 + 5 := by
      simp [emit, hlen]
    rw [← hlen2]
    simp [tokYield]
  | symOp op p =>
    obtain ⟨hop, hlen⟩ := hwf
    rw [scanRefs.eq_def]
    have hlt : 0 < (emit (RTok.symOp op p) ++ rest).length := by
      simp [emit]
    rw [dif_pos hlt]
    have hg : (emit (RTok.symOp op p) ++ rest)[0] = op := by
      simp [emit]
    have h51 : ¬(op = 0x51) := by
      rcases hop with h | h <;> omega
    have h80 : ¬(op = 0x80) := by
      rcases hop with h | h <;> omega
    rw [hg, if_neg h51, if_neg h80, if_pos hop]
    have hle : 0 + 5 ≤ (emit (RTok.symOp op p) ++ rest).length := by
      simp [emit, hlen]
    rw [if_pos hle]
    have htake : ((emit (RTok.symOp op p) ++ rest).drop (0 + 1)).take 4 = p := by
      have hdp : (emit (RTok.symOp op p) ++ rest).drop (0 + 1) = p ++ rest := by
        simp [emit]
      rw [hdp, ← hlen, List.take_left]
    rw [htake]
    have hlen2 : (emit (RTok.symOp op p)).length = 0 + 5 := by
      simp [emit, hlen]
    rw [← hlen2]
    simp [tokYield]
  | plain b =>
    obtain ⟨hb50, hb51, hb80, hb81⟩ := hwf
    rw [scanRefs.eq_def]
    have hlt : 0 < (emit (RTok.plain b) ++ rest).length := by
      simp [emit]
    rw [dif_pos hlt]
    have hg : (emit (RTok.plain b) ++ rest)[0] = b := by
      simp [emit]
    rw [hg, if_neg hb51, if_neg hb80,
      if_neg (by rintro (h | h) <;> [exact hb50 h; exact hb81 h])]
    have hlen2 : (emit (RTok.plain b)).length = 0 + 1 := by
      simp [emit]
    rw [← hlen2]
    simp [tokYield]

/-- C3 amended: on every buffer that is a concatenation of well-formed opcode
units (each 0x51 string null-terminated inside the buffer, each
0x50/0x81/0x80 followed by its full 4-byte payload, other bytes none of the
four opcodes), the scanner makes its single left-to-right pass exactly as the
dispatch table says and terminates at the buffer's length, yielding exactly
the little-endian u32 operands of the 0x50/0x81 units in order.  (The
counterexample shows the hypothesis is needed: the original unconditional
claim fails on `[0x50]`, where the scan aborts instead.) -/
theorem C3_amended_scanner_token_contract (toks : List RTok)
    (hwf : ∀ t ∈ toks, tokWF t) :
    scanRefs ((toks.map emit).flatten) 0 []
      = .ok ((toks.map tokYield).flatten) := by
  induction toks with
  | nil =>
    rw [scanRefs.eq_def]
    simp
  | cons t ts ih =>
    have hwt := hwf t (List.mem_cons_self t ts)
    have hw' : ∀ u ∈ ts, tokWF u := fun u hu => hwf u (List.mem_cons_of_mem t hu)
    simp only [List.map_cons, List.flatten_cons]
    rw [scanRefs_emit_step t _ [] hwt]
    have hshift := scanRefs_shift (emit t) ((ts.map emit).flatten)
      ((ts.map emit).flatten).length 0 ([] ++ tokYield t) (by omega)
    have hshift' : scanRefs (emit t ++ (ts.map emit).flatten)
        ((emit t).length) ([] ++ tokYield t)
        = scanRefs ((ts.map emit).flatten) 0 ([] ++ tokYield t) := by
      simpa using hshift
    rw [hshift', scanRefs_acc ((ts.map emit).flatten)
      ((ts.map emit).flatten).length 0 ([] ++ tokYield t) (by omega), ih hw']
    simp

/-- C3 amended witness: a five-unit buffer — a string unit, a 0x50 reference
to index 3, a plain byte, an immediate, and a 0x81 reference to index 257 —
scans to exactly `[3, 257]`. -/
theorem C3_amended_scanner_token_contract_witness :
    scanRefs ((([RTok.strOp [65], RTok.symOp 0x50 [3, 0, 0, 0], RTok.plain 66,
        RTok.immOp [9, 9, 9, 9],
        RTok.symOp 0x81 [1, 1, 0, 0]].map emit).flatten)) 0 []
      = .ok [3, 257] := by
  have h := C3_amended_scanner_token_contract
    [RTok.strOp [65], RTok.symOp 0x50 [3, 0, 0, 0], RTok.plain 66,
      RTok.immOp [9, 9, 9, 9], RTok.symOp 0x81 [1, 1, 0, 0]] (by decide)
  simpa [tokYield, leNum] using h

/- C10: termination of the scan loop. -/

/-- C10: on every buffer whose reachable 0x51 dispatch positions are followed
by a zero byte, the outer scan loop terminates: every iteration that
continues advances the cursor by at least one byte, and within `length + 1`
iterations the loop has stopped (normal exit past the end, or a raised
error). -/
theorem C10_scan_loop_terminates (rpn : List Nat)
    (hstr : ∀ pos, ScanReach rpn pos → ∀ h : pos < rpn.length,
      rpn[pos] = 0x51 → ∃ j, pos < j ∧ ∃ hj : j < rpn.length, rpn[j] = 0) :
    (∀ pos pos', scanStep rpn (.running pos) = .running pos' → pos + 1 ≤ pos') ∧
    (∃ n, n ≤ rpn.length + 1 ∧
      ((scanStep rpn)^[n] (ScanState.running 0) = ScanState.finished ∨
        (scanStep rpn)^[n] (ScanState.running 0) = ScanState.failed)) := by
  have hadv : ∀ pos pos',
      scanStep rpn (.running pos) = .running pos' → pos + 1 ≤ pos' := by
    intro pos pos' h
    simp only [scanStep] at h
    split at h
    · split at h
      · split at h
        · cases h
        · cases h
          omega
      · split at h
        · cases h
          omega
        · split at h
          · split at h
            · cases h
              omega
            · cases h
          · cases h
            omega
    · cases h
  refine ⟨hadv, ?_⟩
  have key : ∀ d pos, rpn.length - pos ≤ d →
      ∃ n, n ≤ d + 1 ∧
        ((scanStep rpn)^[n] (ScanState.running pos) = ScanState.finished ∨
          (scanStep rpn)^[n] (ScanState.running pos) = ScanState.failed) := by
    intro d
    induction d with
    | zero =>
      intro pos hd
      refine ⟨1, Nat.le_refl 1, Or.inl ?_⟩
      have hnl : ¬(pos < rpn.length) := by omega
      simp [scanStep, hnl]
    | succ m ih =>
      intro pos hd
      cases hst : scanStep rpn (.running pos) with
      | running pos' =>
        have hge := hadv pos pos' hst
        have hlt : pos < rpn.length := by
          by_contra hc
          have hfin : scanStep rpn (.running pos) = .finished := by
            simp [scanStep, hc]
          rw [hfin] at hst
          cases hst
        obtain ⟨n, hn, hterm⟩ := ih pos' (by omega)
        refine ⟨n + 1, by omega, ?_⟩
        rw [Function.iterate_succ_apply, hst]
        exact hterm
      | finished =>
        refine ⟨1, by omega, Or.inl ?_⟩
        simpa using hst
      | failed =>
        refine ⟨1, by omega, Or.inr ?_⟩
        simpa using hst
  obtain ⟨n, hn, ht⟩ := key rpn.length 0 (by omega)
  exact ⟨n, by omega, ht⟩

/-- C10 witness: the single-byte buffer `[66]` (no 0x51 at all, so the
hypothesis holds vacuously) stops within 2 iterations. -/
theorem C10_scan_loop_terminates_witness :
    ∃ n, n ≤ ([66] : List Nat).length + 1 ∧
      ((scanStep [66])^[n] (ScanState.running 0) = ScanState.finished ∨
        (scanStep [66])^[n] (ScanState.running 0) = ScanState.failed) :=
  (C10_scan_loop_terminates [66] (by
    intro pos hr h h51
    have hp : pos = 0 := by
      have : pos < 1 := by simpa using h
      omega
    subst hp
    simp at h51)).2

end UnusedSymbols
